import Mathlib

/-!
# A verification model of the pytdd tensor decision diagram engine

This file embeds the core of the `tdd` Python package (`src/tdd/tdd.py` and the
weighted-node algebra it delegates to) as executable Lean definitions and proves
properties of the embedded operations.

Modelling conventions:
* Edge weights in the source are CUDA complex tensors (last dimension 2 holding
  real and imaginary parts), possibly carrying leading parallel/batch axes.  The
  claims under study concern the data axes only, so the model fixes the parallel
  shape to `[]`: a weight is one complex number.  Complex numbers are modelled
  with rational components (`Cpl`) so that every definition is executable and
  every concrete statement decidable; the floating-point tolerance of the source
  becomes exact equality.
* The `node`/`weighted_node`/`CUDAcpl` modules of the repository are not part of
  the provided sources (only their callers are); definitions taken from them are
  marked `Modelled from the spec:` in their doc comments.
* Hash consing (the unique table) makes structurally equal nodes reference
  equal in the source; in the model a node is an inductive value and reference
  equality is definitional equality of values.  The `None` node of the source
  (the terminal sentinel) is the `Node.terminal` constructor.
-/

/-- Complex numbers with rational components.  Models one entry of a CUDAcpl
tensor (a pair of a real and an imaginary part); rationals stand in for floats
so that arithmetic is exact and decidable. -/
@[ext]
structure Cpl where
  re : ℚ
  im : ℚ
deriving DecidableEq, Repr

namespace Cpl

instance : Zero Cpl := ⟨⟨0, 0⟩⟩
instance : One Cpl := ⟨⟨1, 0⟩⟩
instance : Add Cpl := ⟨fun x y => ⟨x.re + y.re, x.im + y.im⟩⟩
instance : Neg Cpl := ⟨fun x => ⟨-x.re, -x.im⟩⟩
instance : Mul Cpl := ⟨fun x y => ⟨x.re * y.re - x.im * y.im, x.re * y.im + x.im * y.re⟩⟩

/-- Squared norm, used to define division. -/
def normSq (x : Cpl) : ℚ := x.re * x.re + x.im * x.im

instance : Inv Cpl := ⟨fun x => ⟨x.re / normSq x, -x.im / normSq x⟩⟩

@[simp] theorem zero_re : (0 : Cpl).re = 0 := rfl
@[simp] theorem zero_im : (0 : Cpl).im = 0 := rfl
@[simp] theorem one_re : (1 : Cpl).re = 1 := rfl
@[simp] theorem one_im : (1 : Cpl).im = 0 := rfl
@[simp] theorem add_re (x y : Cpl) : (x + y).re = x.re + y.re := rfl
@[simp] theorem add_im (x y : Cpl) : (x + y).im = x.im + y.im := rfl
@[simp] theorem neg_re (x : Cpl) : (-x).re = -x.re := rfl
@[simp] theorem neg_im (x : Cpl) : (-x).im = -x.im := rfl
@[simp] theorem mul_re (x y : Cpl) : (x * y).re = x.re * y.re - x.im * y.im := rfl
@[simp] theorem mul_im (x y : Cpl) : (x * y).im = x.re * y.im + x.im * y.re := rfl
@[simp] theorem inv_re (x : Cpl) : (x⁻¹).re = x.re / normSq x := rfl
@[simp] theorem inv_im (x : Cpl) : (x⁻¹).im = -x.im / normSq x := rfl

theorem normSq_ne_zero {x : Cpl} (hx : x ≠ 0) : normSq x ≠ 0 := by
  intro h
  apply hx
  have hre := mul_self_nonneg x.re
  have him := mul_self_nonneg x.im
  unfold normSq at h
  have h1 : x.re * x.re = 0 := by nlinarith
  have h2 : x.im * x.im = 0 := by nlinarith
  ext <;> simp [mul_self_eq_zero.mp h1, mul_self_eq_zero.mp h2]

instance commRing : CommRing Cpl where
  add_assoc := by intros; ext <;> simp <;> ring
  zero_add := by intros; ext <;> simp
  add_zero := by intros; ext <;> simp
  add_comm := by intros; ext <;> simp <;> ring
  mul_assoc := by intros; ext <;> simp <;> ring
  one_mul := by intros; ext <;> simp
  mul_one := by intros; ext <;> simp
  left_distrib := by intros; ext <;> simp <;> ring
  right_distrib := by intros; ext <;> simp <;> ring
  mul_comm := by intros; ext <;> simp <;> ring
  zero_mul := by intros; ext <;> simp
  mul_zero := by intros; ext <;> simp
  neg_add_cancel := by intros; ext <;> simp
  nsmul := nsmulRec
  zsmul := zsmulRec

instance field : Field Cpl where
  inv := Inv.inv
  exists_pair_ne := ⟨0, 1, by intro h; exact one_ne_zero (congrArg Cpl.re h).symm⟩
  mul_inv_cancel := by
    intro x hx
    have hn := normSq_ne_zero hx
    ext <;> field_simp <;> unfold normSq <;> ring
  inv_zero := by ext <;> simp [normSq]
  nnqsmul := _
  qsmul := _

@[simp] theorem re_natCast (n : ℕ) : ((n : ℕ) : Cpl).re = n := by
  induction n with
  | zero => simp [Nat.cast_zero]
  | succ m ih => rw [Nat.cast_succ, add_re, ih, one_re, Nat.cast_succ]

@[simp] theorem im_natCast (n : ℕ) : ((n : ℕ) : Cpl).im = 0 := by
  induction n with
  | zero => simp [Nat.cast_zero]
  | succ m ih => rw [Nat.cast_succ, add_im, ih, one_im, add_zero]

@[simp] theorem re_ofNat (n : ℕ) [n.AtLeastTwo] :
    (OfNat.ofNat n : Cpl).re = OfNat.ofNat n := by
  rw [← Nat.cast_ofNat, re_natCast, Nat.cast_ofNat]

@[simp] theorem im_ofNat (n : ℕ) [n.AtLeastTwo] :
    (OfNat.ofNat n : Cpl).im = 0 := by
  rw [← Nat.cast_ofNat, im_natCast]

end Cpl

/-! ## Nodes

`node.py` (not among the provided sources) defines `Node` with a depth, a list
of successor weights and a list of successor node references (`Node | None`,
where `None` is the terminal sentinel).  Modelled from the spec: the two
parallel lists are fused into one list of `(weight, successor)` pairs, and the
terminal sentinel is a constructor. -/
inductive Node where
  | terminal : Node
  | node (depth : ℕ) (succs : List (Cpl × Node)) : Node

namespace Node

/-- Induction principle exposing the membership hypothesis for successors. -/
theorem rec_mem {P : Node → Prop} (ht : P terminal)
    (hn : ∀ d succs, (∀ p ∈ succs, P p.2) → P (node d succs)) : ∀ n, P n := by
  intro n
  refine @Node.rec P (fun l => ∀ p ∈ l, P p.2) (fun p => P p.2)
    ht hn ?_ ?_ ?_ n
  · intro p hp
    cases hp
  · intro head tail ihh iht p hp
    rcases List.mem_cons.mp hp with h | h
    · exact h ▸ ihh
    · exact iht p h
  · intro fst snd ih
    exact ih

end Node

mutual

/-- Boolean structural equality of nodes (the unique table makes structural
equality the same as reference equality in the source). -/
def Node.beq : Node → Node → Bool
  | .terminal, .terminal => true
  | .node d1 s1, .node d2 s2 => d1 == d2 && Node.beqList s1 s2
  | _, _ => false

/-- Boolean equality of successor lists. -/
def Node.beqList : List (Cpl × Node) → List (Cpl × Node) → Bool
  | [], [] => true
  | p :: t1, q :: t2 => p.1 == q.1 && Node.beq p.2 q.2 && Node.beqList t1 t2
  | _, _ => false

end

namespace Node

theorem beqList_iff
    (t1 : List (Cpl × Node)) (ih : ∀ p ∈ t1, ∀ n, beq p.2 n = true ↔ p.2 = n) :
    ∀ t2, beqList t1 t2 = true ↔ t1 = t2 := by
  induction t1 with
  | nil => intro t2; cases t2 <;> simp [beqList]
  | cons p t1 iht =>
      intro t2
      cases t2 with
      | nil => simp [beqList]
      | cons q t2 =>
          simp only [beqList, Bool.and_eq_true, beq_iff_eq, List.cons.injEq]
          rw [ih p (by simp) q.2, iht (fun p hp => ih p (by simp [hp])) t2]
          constructor
          · rintro ⟨⟨h1, h2⟩, h3⟩
            exact ⟨Prod.ext h1 h2, h3⟩
          · rintro ⟨h1, h3⟩
            exact ⟨⟨congrArg Prod.fst h1, congrArg Prod.snd h1⟩, h3⟩

theorem beq_iff : ∀ m n, beq m n = true ↔ m = n := by
  intro m
  induction m using Node.rec_mem with
  | ht => intro n; cases n <;> simp [beq]
  | hn d1 s1 ih =>
      intro n
      cases n with
      | terminal => simp [beq]
      | node d2 s2 =>
          simp only [beq, Bool.and_eq_true, beq_iff_eq, node.injEq]
          rw [beqList_iff s1 ih s2]

instance : DecidableEq Node := fun m n => decidable_of_iff _ (beq_iff m n)

end Node

/-! ## Semantics

A node denotes a function from storage-order index assignments to complex
values.  An assignment is a list of branch values, read at position `depth`
by a node branching at that depth. -/

/-- Evaluation of a node at a storage-order assignment: the terminal denotes
the constant 1; a branching node selects the successor given by the
assignment at its depth, multiplying in the edge weight.  An assignment value
outside the successor list yields 0 (such assignments are outside every valid
shape). -/
def evalN : Node → List ℕ → Cpl
  | .terminal, _ => 1
  | .node d succs, s =>
      match h : succs.get? (s.getD d 0) with
      | some (w, c) => w * evalN c s
      | none => 0
termination_by n _ => sizeOf n
decreasing_by
  have := List.sizeOf_lt_of_mem (List.get?_mem h)
  simp at this ⊢
  omega

/-- The error taxonomy of the spec (the Python source raises `Exception`s with
messages; the spec names them). -/
inductive TDDErr where
  | ShapeMismatch
  | ShapeOrderMismatch
  | IndexOutOfRange
  | InvalidBranchValue
deriving DecidableEq, Repr

/-! ## The weighted-node algebra

`weighted_node.py` is not among the provided sources.  The definitions below
are modelled from the spec, section 4.2, with the canonicalization rule left
open by the spec (section 9) fixed as: redirect weight-0 edges to the
terminal, collapse the all-zero successor vector to `(terminal, 0)`, collapse
a node whose successor edges all agree to that shared edge, and otherwise
factor out the first successor weight of nonzero norm. -/

namespace weighted_node

/-- Modelled from the spec: `weighted_node.normalize` for a freshly assembled
node of the given depth and successor edges, with incoming dangling weight 1
(every call site of the model passes weight 1, as `as_tensor_iterate` does).
Returns the canonical node together with the factored-out weight. -/
def normalize (d : ℕ) (succs : List (Cpl × Node)) : Node × Cpl :=
  let succs := succs.map (fun p => if p.1 = 0 then ((0 : Cpl), Node.terminal) else p)
  if succs.all (fun p => p.1 == 0) then (Node.terminal, 0)
  else if succs.all (fun p => p == succs.headD (0, Node.terminal)) then
    ((succs.headD (0, Node.terminal)).2, (succs.headD (0, Node.terminal)).1)
  else
    let w0 := ((succs.find? (fun p => !(p.1 == 0))).getD (1, Node.terminal)).1
    (Node.node d (succs.map (fun p => (p.1 / w0, p.2))), w0)

/-- Modelled from the spec: `weighted_node.sum`, diagram-level tensor
addition.  Terminal/terminal is scalar addition; otherwise both operands are
aligned to the smaller branching depth, an operand that skips that axis being
replicated across every branch value, and the assembled node is normalized.
The memoization cache of the source affects performance only and is not
modelled. -/
def sum (a b : Node × Cpl) : Node × Cpl :=
  match a, b with
  | (.terminal, w1), (.terminal, w2) => (.terminal, w1 + w2)
  | (.terminal, w1), (.node d2 s2, w2) =>
      normalize d2 (s2.attach.map (fun q =>
        let r := sum (.terminal, w1) (q.1.2, w2 * q.1.1); (r.2, r.1)))
  | (.node d1 s1, w1), (.terminal, w2) =>
      normalize d1 (s1.attach.map (fun q =>
        let r := sum (q.1.2, w1 * q.1.1) (.terminal, w2); (r.2, r.1)))
  | (.node d1 s1, w1), (.node d2 s2, w2) =>
      if d1 < d2 then
        normalize d1 (s1.attach.map (fun q =>
          let r := sum (q.1.2, w1 * q.1.1) (.node d2 s2, w2); (r.2, r.1)))
      else if d2 < d1 then
        normalize d2 (s2.attach.map (fun q =>
          let r := sum (.node d1 s1, w1) (q.1.2, w2 * q.1.1); (r.2, r.1)))
      else
        normalize d1 ((s1.zip s2).attach.map (fun q =>
          let r := sum (q.1.1.2, w1 * q.1.1.1) (q.1.2.2, w2 * q.1.2.1); (r.2, r.1)))
termination_by sizeOf a.1 + sizeOf b.1
decreasing_by
  all_goals
    first
    | (obtain ⟨⟨⟨wa, ca⟩, wb, cb⟩, hq⟩ := q
       have h1 := List.sizeOf_lt_of_mem (List.of_mem_zip hq).1
       have h2 := List.sizeOf_lt_of_mem (List.of_mem_zip hq).2
       simp at h1 h2 ⊢
       omega)
    | (obtain ⟨⟨w, c⟩, hq⟩ := q
       have := List.sizeOf_lt_of_mem hq
       simp at this ⊢
       omega)

mutual

/-- Modelled from the spec: the node traversal of `weighted_node.index`.
`pairs` holds `(storage position, branch value)` items, positions counted in
the original storage numbering of the node being indexed.  At a node whose
depth carries a requested position the branch for the value is selected and
its weight multiplied in (`InvalidBranchValue` when the value exceeds the
arity); positions lying on axes the diagram skips are no-ops; a node that is
kept is rebuilt with its depth shifted down by the number of fixed positions
below it and renormalized.  Returns the result node and the accumulated
weight factor (the caller multiplies in the incoming dangling weight). -/
def indexCore (pairs : List (ℕ × ℕ)) : Node → Except TDDErr (Node × Cpl)
  | .terminal => .ok (.terminal, 1)
  | .node d succs =>
      match pairs.find? (fun pv => pv.1 == d) with
      | some pv =>
          match h : succs.get? pv.2 with
          | some (w, c) => (indexCore pairs c).map (fun r => (r.1, w * r.2))
          | none => .error .InvalidBranchValue
      | none => (indexList pairs succs).map (fun newSuccs =>
          normalize (d - (pairs.filter (fun pv => pv.1 < d)).length) newSuccs)
termination_by n => sizeOf n
decreasing_by
  all_goals
    first
    | (have hsm := List.sizeOf_lt_of_mem (List.get?_mem h)
       simp at hsm ⊢
       omega)
    | (simp
       omega)
    | simp

/-- Traversal of `indexCore` over a successor list. -/
def indexList (pairs : List (ℕ × ℕ)) :
    List (Cpl × Node) → Except TDDErr (List (Cpl × Node))
  | [] => .ok []
  | (w, c) :: t => do
      let r ← indexCore pairs c
      let rest ← indexList pairs t
      .ok ((w * r.2, r.1) :: rest)
termination_by l => sizeOf l
decreasing_by
  all_goals
    first
    | (simp
       omega)
    | simp

end

/-- Modelled from the spec: `weighted_node.index` on a weighted node, as called
by the facade: fixes the given `(position, value)` pairs and multiplies the
accumulated factor into the incoming dangling weight. -/
def index (a : Node × Cpl) (pairs : List (ℕ × ℕ)) : Except TDDErr (Node × Cpl) :=
  (indexCore pairs a.1).map (fun r => (r.1, a.2 * r.2))

end weighted_node

/-! ## Index-order utilities -/

/-- Modelled from the spec: `node.order_inverse`, the inverse of a
permutation given as a list (`index_order` is always a permutation of
`range(len(data_shape))`, spec section 3). -/
def order_inverse (order : List ℕ) : List ℕ :=
  (List.range order.length).map (fun a => order.indexOf a)

/-- `sorted(range(len(key)), key = lambda k: key[k])`, as used by
`TDD.__index_reduce_proc`: the list of positions of `key` sorted by their
values (an argsort; `key` has pairwise distinct entries at every call site,
so stability is irrelevant). -/
def pyArgsort (key : List ℕ) : List ℕ :=
  (List.range key.length).mergeSort (fun a b => decide (key.getD a 0 ≤ key.getD b 0))

/-! ## The TDD facade (`src/tdd/tdd.py`) -/

/-- The TDD facade value: dangling weight, logical data shape, root node and
the `index_order` bookkeeping list (storage depth `d` branches on the data
axis `index_order[d]` — see `TDD.__as_tensor_iterate`, which splits the
tensor at `index_order[depth]`).  The parallel shape is fixed to `[]`. -/
structure TDDm where
  weights : Cpl
  data_shape : List ℕ
  node : Node
  index_order : List ℕ
deriving DecidableEq

namespace TDDm

/-- `TDD.dim_data`. -/
def dim_data (t : TDDm) : ℕ := t.data_shape.length

/-- `TDD.global_order` with an empty parallel shape is just `index_order`
(the parallel part contributes nothing and the increment is 0). -/
def global_order (t : TDDm) : List ℕ := t.index_order

/-- `TDD.__as_tensor_iterate`.  The source slices the dense tensor along the
data axis `index_order[depth]`, keeping sliced axes as phantom size-1 axes,
so each recursive call's tensor is the original with one more data axis fixed.
The model carries the original tensor `T` (a function from a data-axis index
list to a value) together with `base`, the index list with the already-fixed
positions set; at the bottom every position has been fixed and the single
remaining entry is `T base`.  The guard compares `depth` with
`data_shape.length` by `≥` where the source tests equality: the recursion
starts at 0 and increments by 1, so the guards agree on every reachable
call. -/
def as_tensor_iterate (T : List ℕ → Cpl) (base : List ℕ)
    (data_shape index_order : List ℕ) (depth : ℕ) : Node × Cpl :=
  if h : data_shape.length ≤ depth then (.terminal, T base)
  else
    let split_pos := index_order.getD depth 0
    let the_successors := (List.range (data_shape.getD split_pos 0)).map
      (fun k => as_tensor_iterate T (base.set split_pos k) data_shape index_order (depth + 1))
    weighted_node.normalize depth (the_successors.map (fun r => (r.2, r.1)))
termination_by data_shape.length - depth
decreasing_by omega

/-- `TDD.as_tensor` on input form 2, `(data, parallel_shape = [], index_order)`:
the data shape is read off the tensor (here passed as the explicit shape of
the function `T`), an empty supplied order defaults to the trivial order, and
construction fails with `ShapeOrderMismatch` when the resulting order's length
differs from the number of data axes. -/
def as_tensor (T : List ℕ → Cpl) (data_shape : List ℕ) (index_order : List ℕ) :
    Except TDDErr TDDm :=
  let result_index_order :=
    if index_order = [] then List.range data_shape.length else index_order
  if data_shape.length ≠ result_index_order.length then .error .ShapeOrderMismatch
  else
    let r := as_tensor_iterate T (List.replicate data_shape.length 0)
      data_shape result_index_order 0
    .ok ⟨r.2, data_shape, r.1, result_index_order⟩

/-- Modelled from the spec: `weighted_node.to_CUDAcpl_Tensor` expands a
weighted node into the dense array it denotes, in storage order (axis `d` of
the result is storage depth `d`); the shape argument mirrors the source call
but the functional model needs no reshape. -/
def to_CUDAcpl_Tensor (a : Node × Cpl) (_shape : List ℕ) : List ℕ → Cpl :=
  fun s => a.2 * evalN a.1 s

/-- `torch.Tensor.permute(p)`: axis `m` of the output is axis `p[m]` of the
input, so the output at index `x` reads the input at the index `y` with
`y[p[m]] = x[m]`, that is `y[a] = x[p⁻¹[a]]`. -/
def torchPermute (p : List ℕ) (T : List ℕ → Cpl) : List ℕ → Cpl :=
  fun x => T ((order_inverse p).map (fun a => x.getD a 0))

/-- `TDD.CUDAcpl`: materialization.  Expands the diagram via
`to_CUDAcpl_Tensor` on the `trival_ordered_data_shape` and permutes the
result by `global_order` (with no parallel axes, by `index_order`). -/
def CUDAcpl (t : TDDm) : List ℕ → Cpl :=
  let trival_ordered_data_shape :=
    (order_inverse t.index_order).map (fun i => t.data_shape.getD i 0)
  let node_data := to_CUDAcpl_Tensor (t.node, t.weights) trival_ordered_data_shape
  torchPermute t.global_order node_data

/-- `TDD.__index_reduce_proc`: data shape and index order after removing the
given inner (storage) positions; the new index order is the argsort of the
surviving `index_order` entries. -/
def index_reduce_proc (t : TDDm) (reduced_indices : List ℕ) : List ℕ × List ℕ :=
  let survivors := (List.range t.data_shape.length).filter
    (fun i => !(reduced_indices.contains i))
  let new_data_shape := survivors.map (fun i => t.data_shape.getD i 0)
  let indexed_index_order := survivors.map (fun i => t.index_order.getD i 0)
  (new_data_shape, pyArgsort indexed_index_order)

/-- `TDD.index`: translates the requested data positions to inner (storage)
positions through `order_inverse` (a Python list lookup, raising for a
position beyond the current live axes), delegates to `weighted_node.index`,
and rebuilds the shape/order bookkeeping via `__index_reduce_proc`. -/
def index (t : TDDm) (data_indices : List (ℕ × ℕ)) : Except TDDErr TDDm :=
  let reversed_order := order_inverse t.index_order
  if data_indices.any (fun pv => reversed_order.length ≤ pv.1) then
    .error .IndexOutOfRange
  else
    let inner_indices := data_indices.map (fun pv => (reversed_order.getD pv.1 0, pv.2))
    (weighted_node.index (t.node, t.weights) inner_indices).map (fun r =>
      let proc := t.index_reduce_proc (inner_indices.map (fun pv => pv.1))
      ⟨r.2, proc.1, r.1, proc.2⟩)

/-- `TDD.sum`: delegates to `weighted_node.sum`; the result carries copies of
`a`'s `data_shape` and `index_order` (the source performs no shape check). -/
def sum (a b : TDDm) : TDDm :=
  let r := weighted_node.sum (a.node, a.weights) (b.node, b.weights)
  ⟨r.2, a.data_shape, r.1, a.index_order⟩

/-- The pending-pair renumbering performed at the end of each `TDD.contract`
iteration: each coordinate is decremented once if it exceeds the first
removed position, and then once more if the *already decremented* value still
exceeds the second removed position. -/
def contractRenumber (item : ℕ × ℕ) (p : ℕ × ℕ) : ℕ × ℕ :=
  let i0 := p.1
  let i1 := p.2
  let i0 := if i0 > item.1 then i0 - 1 else i0
  let i0 := if i0 > item.2 then i0 - 1 else i0
  let i1 := if i1 > item.1 then i1 - 1 else i1
  let i1 := if i1 > item.2 then i1 - 1 else i1
  (i0, i1)

/-- The `while inner_indices != []` loop of `TDD.contract`: consume the first
pending pair by indexing both of its positions at every branch value and
summing the results, then renumber the remaining pairs and continue.  The
axis width is read from the *original* TDD's `data_shape`/`index_order`, as
the source does (`self` is the uncontracted TDD). -/
def contractLoop (t0 : TDDm) (rw : Node × Cpl) :
    List (ℕ × ℕ) → Except TDDErr (Node × Cpl)
  | [] => .ok rw
  | item :: rest => do
      let index_width := t0.data_shape.getD (t0.index_order.getD item.1 0) 0
      let seed ← weighted_node.index rw [(item.1, 0), (item.2, 0)]
      let summed ← (List.range' 1 (index_width - 1)).foldlM
        (fun acc i => do
          let nw ← weighted_node.index rw [(item.1, i), (item.2, i)]
          pure (weighted_node.sum acc nw)) seed
      contractLoop t0 summed (rest.map (contractRenumber item))
termination_by l => l.length
decreasing_by simp

/-- `TDD.contract`: translates both position lists to inner positions (the
Python list lookups raise for positions beyond the live axes), runs the
contraction loop, and rebuilds shape/order bookkeeping from the *original*
inner position pairs.  When no pair is given the source clones the weight
tensor to avoid aliasing; the value model keeps the (equal) weight value. -/
def contract (t : TDDm) (data_indices : List ℕ × List ℕ) : Except TDDErr TDDm :=
  let reversed_order := order_inverse t.index_order
  if (data_indices.1 ++ data_indices.2).any (fun i => reversed_order.length ≤ i) then
    .error .IndexOutOfRange
  else
    let inner_indices := (List.range data_indices.1.length).map (fun k =>
      (reversed_order.getD (data_indices.1.getD k 0) 0,
       reversed_order.getD (data_indices.2.getD k 0) 0))
    (contractLoop t (t.node, t.weights) inner_indices).map (fun r =>
      let reduced_indices := inner_indices.flatMap (fun pv => [pv.1, pv.2])
      let proc := t.index_reduce_proc reduced_indices
      ⟨r.2, proc.1, r.1, proc.2⟩)

/-! ### Denotation

The semantic reading of a facade value: the external (logical) tensor it
represents.  The storage assignment for an external index `x` places `x`'s
entry for data axis `index_order[d]` at storage depth `d`, matching the way
`__as_tensor_iterate` splits the tensor. -/

/-- Storage assignment corresponding to an external index list. -/
def storageIdx (order : List ℕ) (x : List ℕ) : List ℕ :=
  order.map (fun a => x.getD a 0)

/-- The external tensor denoted by a facade value. -/
def denote (t : TDDm) (x : List ℕ) : Cpl :=
  t.weights * evalN t.node (storageIdx t.index_order x)

end TDDm

/-- All index lists bounded by a shape (row-major enumeration); a list `x`
is in `allIdx sh` exactly when it has the same length as `sh` and is
pointwise below it. -/
def allIdx : List ℕ → List (List ℕ)
  | [] => [[]]
  | n :: sh => (List.range n).flatMap (fun k => (allIdx sh).map (fun s => k :: s))

/-! ## Validity and the canonical-form invariant -/

/-- An assignment is valid for a shape when it has the same length and is
pointwise below it. -/
def Valid (sh s : List ℕ) : Prop :=
  s.length = sh.length ∧ ∀ d, d < sh.length → s.getD d 0 < sh.getD d 0

instance (sh s : List ℕ) : Decidable (Valid sh s) := by unfold Valid; infer_instance

/-- A shape with only positive axis sizes. -/
def PosShape (sh : List ℕ) : Prop := ∀ d, d < sh.length → 0 < sh.getD d 0

instance (sh : List ℕ) : Decidable (PosShape sh) := by unfold PosShape; infer_instance

/-- The root of a node branches strictly below depth `d` — terminal, or a
branching node of depth `> d`. -/
def rootGtB (d : ℕ) : Node → Bool
  | .terminal => true
  | .node e _ => decide (d < e)

mutual

/-- The canonical-form invariant maintained by the engine for nodes stored in
the unique table, relative to the storage-order shape `sh` (spec section 3,
with the concrete canonicalization rule of `normalize`): a branching node
branches on a live axis with one successor per branch value; successors are
canonical, strictly deeper, and weight-0 edges point to the terminal; some
successor weight is nonzero; the first nonzero successor weight is 1 (the
factored scalar); and the successor edges are not all equal (else the node
would have been collapsed). -/
def canonicalNB (sh : List ℕ) : Node → Bool
  | .terminal => true
  | .node d succs =>
      decide (d < sh.length) && succs.length == sh.getD d 0 &&
      canonicalListB sh d succs &&
      succs.any (fun p => !(p.1 == 0)) &&
      ((succs.find? (fun p => !(p.1 == 0))).getD (1, .terminal)).1 == 1 &&
      !(succs.all (fun p => p == succs.headD (0, .terminal)))

/-- The per-successor part of `canonicalNB`. -/
def canonicalListB (sh : List ℕ) (d : ℕ) : List (Cpl × Node) → Bool
  | [] => true
  | p :: t =>
      canonicalNB sh p.2 && rootGtB d p.2 && (!(p.1 == 0) || p.2 == Node.terminal) &&
      canonicalListB sh d t

end

/-- Propositional form of the canonical invariant. -/
def CanonicalN (sh : List ℕ) (n : Node) : Prop := canonicalNB sh n = true

instance (sh : List ℕ) (n : Node) : Decidable (CanonicalN sh n) := by
  unfold CanonicalN; infer_instance

/-- Propositional form of `rootGtB`. -/
def RootGt (d : ℕ) (n : Node) : Prop := rootGtB d n = true

theorem rootGt_terminal (d : ℕ) : RootGt d .terminal := rfl

theorem rootGt_node {d e : ℕ} {succs} : RootGt d (.node e succs) ↔ d < e := by
  simp [RootGt, rootGtB]

theorem rootGt_mono {d d' : ℕ} {n : Node} (h : RootGt d n) (hd : d' ≤ d) : RootGt d' n := by
  cases n with
  | terminal => exact rootGt_terminal d'
  | node e succs => exact rootGt_node.mpr (lt_of_le_of_lt hd (rootGt_node.mp h))

theorem canonicalListB_iff (sh : List ℕ) (d : ℕ) (l : List (Cpl × Node)) :
    canonicalListB sh d l = true ↔
      ∀ p ∈ l, CanonicalN sh p.2 ∧ RootGt d p.2 ∧ (p.1 = 0 → p.2 = .terminal) := by
  induction l with
  | nil => simp [canonicalListB]
  | cons p t ih =>
      simp only [canonicalListB, Bool.and_eq_true, ih, List.mem_cons]
      constructor
      · rintro ⟨⟨⟨h1, h2⟩, h3⟩, h4⟩
        rintro x (rfl | hx)
        · refine ⟨h1, h2, ?_⟩
          intro h0
          rcases Bool.or_eq_true _ _ |>.mp h3 with h | h
          · simp [h0] at h
          · exact beq_iff_eq.mp h
        · exact h4 x hx
      · intro h
        obtain ⟨h1, h2, h3⟩ := h p (Or.inl rfl)
        refine ⟨⟨⟨h1, h2⟩, ?_⟩, fun x hx => h x (Or.inr hx)⟩
        by_cases h0 : p.1 = 0
        · simp [h3 h0]
        · simp [h0]

theorem canonicalN_terminal (sh : List ℕ) : CanonicalN sh .terminal := rfl

/-- Unfolding characterization of the canonical invariant at a branching
node. -/
theorem canonicalN_node_iff {sh : List ℕ} {d : ℕ} {succs : List (Cpl × Node)} :
    CanonicalN sh (.node d succs) ↔
      d < sh.length ∧ succs.length = sh.getD d 0 ∧
      (∀ p ∈ succs, CanonicalN sh p.2 ∧ RootGt d p.2 ∧ (p.1 = 0 → p.2 = .terminal)) ∧
      (∃ p ∈ succs, p.1 ≠ 0) ∧
      ((succs.find? (fun p => !(p.1 == 0))).getD (1, .terminal)).1 = 1 ∧
      (∃ p ∈ succs, p ≠ succs.headD (0, .terminal)) := by
  unfold CanonicalN
  rw [canonicalNB]
  simp only [Bool.and_eq_true, decide_eq_true_eq, beq_iff_eq, canonicalListB_iff,
    List.any_eq_true, Bool.not_eq_true', List.all_eq_false, Bool.not_eq_eq_eq_not,
    Bool.not_true, beq_eq_false_iff_ne]
  constructor
  · rintro ⟨⟨⟨⟨⟨h1, h2⟩, h3⟩, h4⟩, h5⟩, h6⟩
    exact ⟨h1, h2, h3, h4, h5, h6⟩
  · rintro ⟨h1, h2, h3, h4, h5, h6⟩
    exact ⟨⟨⟨⟨⟨h1, h2⟩, h3⟩, h4⟩, h5⟩, h6⟩

/-! ## Evaluation lemmas -/

@[simp]
theorem evalN_terminal (s : List ℕ) : evalN .terminal s = 1 := by rw [evalN]

theorem evalN_node_some {succs : List (Cpl × Node)} {d : ℕ} {s : List ℕ} {w : Cpl} {c : Node}
    (h : succs.get? (s.getD d 0) = some (w, c)) :
    evalN (.node d succs) s = w * evalN c s := by
  rw [evalN]
  split
  · rename_i w' c' h'
    rw [h'] at h
    cases h
    rfl
  · rename_i h'
    rw [h'] at h
    cases h

theorem evalN_node_none {succs : List (Cpl × Node)} {d : ℕ} {s : List ℕ}
    (h : succs.get? (s.getD d 0) = none) :
    evalN (.node d succs) s = 0 := by
  rw [evalN]
  split
  · rename_i w' c' h'
    rw [h'] at h
    cases h
  · rfl

/-- Helper: `getD` after `set` at the written position. -/
theorem getD_set_self {l : List ℕ} {d : ℕ} (v : ℕ) (h : d < l.length) :
    (l.set d v).getD d 0 = v := by
  simp [List.getD_eq_getElem?_getD, List.getElem?_set_self h]

/-- Helper: `getD` after `set` at another position. -/
theorem getD_set_ne {l : List ℕ} {a d : ℕ} (v : ℕ) (h : a ≠ d) :
    (l.set d v).getD a 0 = l.getD a 0 := by
  simp [List.getD_eq_getElem?_getD, List.getElem?_set_ne (show d ≠ a from fun he => h he.symm)]

/-- Validity is preserved by overwriting a coordinate with an in-range value. -/
theorem valid_set {sh s : List ℕ} (hv : Valid sh s) {d v : ℕ} (hd : d < sh.length)
    (hval : v < sh.getD d 0) : Valid sh (s.set d v) := by
  obtain ⟨hl, hb⟩ := hv
  refine ⟨by simp [hl], ?_⟩
  intro a ha
  by_cases had : a = d
  · subst had
    rw [getD_set_self v (by omega)]
    exact hval
  · rw [getD_set_ne v had]
    exact hb a ha

/-- Evaluation of a canonical node only reads assignment coordinates above
any bound below its root depth. -/
theorem evalN_congr {sh : List ℕ} :
    ∀ n, CanonicalN sh n → ∀ k s s', RootGt k n →
      (∀ a, k < a → s.getD a 0 = s'.getD a 0) → evalN n s = evalN n s' := by
  intro n
  induction n using Node.rec_mem with
  | ht => intro _ _ s s' _ _; simp
  | hn d succs ih =>
      intro hc k s s' hr hag
      obtain ⟨_, _, h3, _⟩ := canonicalN_node_iff.mp hc
      have hd : s.getD d 0 = s'.getD d 0 := hag d (rootGt_node.mp hr)
      cases hget : succs.get? (s.getD d 0) with
      | none =>
          rw [evalN_node_none hget, evalN_node_none (by rw [← hd]; exact hget)]
      | some wc =>
          obtain ⟨w, c⟩ := wc
          have hget' : succs.get? (s'.getD d 0) = some (w, c) := by rw [← hd]; exact hget
          rw [evalN_node_some hget, evalN_node_some hget']
          obtain ⟨hcc, hrc, _⟩ := h3 (w, c) (List.get?_mem hget)
          rw [ih (w, c) (List.get?_mem hget) hcc d s s' hrc
            (fun a ha => hag a (lt_trans (rootGt_node.mp hr) ha))]

/-- A canonical node evaluates to a nonzero value at some valid assignment
(for a positive shape). -/
theorem evalN_exists_nonzero {sh : List ℕ} (hpos : PosShape sh) :
    ∀ n, CanonicalN sh n → ∃ s, Valid sh s ∧ evalN n s ≠ 0 := by
  intro n
  induction n using Node.rec_mem with
  | ht =>
      intro _
      refine ⟨List.replicate sh.length 0, ⟨by simp, ?_⟩, by simp⟩
      intro d hd
      simpa using hpos d hd
  | hn d succs ih =>
      intro hc
      obtain ⟨h1, h2, h3, h4, _, _⟩ := canonicalN_node_iff.mp hc
      obtain ⟨p, hp, hpne⟩ := h4
      obtain ⟨v, hv⟩ := List.mem_iff_get?.mp hp
      have hvlen : v < succs.length := by
        by_contra hge
        rw [List.get?_eq_none.mpr (by omega)] at hv
        cases hv
      obtain ⟨hcc, hrc, _⟩ := h3 p hp
      obtain ⟨s', hs', hev⟩ := ih p hp hcc
      refine ⟨s'.set d v, valid_set hs' h1 (by omega), ?_⟩
      obtain ⟨w, c⟩ := p
      have hget : succs.get? ((s'.set d v).getD d 0) = some (w, c) := by
        rw [getD_set_self v (by rw [hs'.1]; exact h1)]
        exact hv
      rw [evalN_node_some hget]
      have : evalN c (s'.set d v) = evalN c s' := by
        refine evalN_congr c hcc d _ _ hrc ?_
        intro a ha
        exact getD_set_ne v (by omega)
      rw [this]
      exact mul_ne_zero hpne hev

/-! ## Canonicity: evaluation determines the canonical form -/

/-- Two distinct members of a list have a combined size below the list's. -/
theorem sizeOf_pair_lt {p q : Cpl × Node} :
    ∀ {l : List (Cpl × Node)}, p ∈ l → q ∈ l → p ≠ q → sizeOf p + sizeOf q < sizeOf l := by
  intro l
  induction l with
  | nil => intro hp; cases hp
  | cons a t ih =>
      intro hp hq hne
      rcases List.mem_cons.mp hp with rfl | hp'
      · have hq' : q ∈ t := by
          rcases List.mem_cons.mp hq with rfl | h
          · exact absurd rfl hne
          · exact h
        have := List.sizeOf_lt_of_mem hq'
        simp
        omega
      · rcases List.mem_cons.mp hq with rfl | hq'
        · have := List.sizeOf_lt_of_mem hp'
          simp
          omega
        · have := ih hp' hq' hne
          simp
          omega

theorem valid_replicate {sh : List ℕ} (hpos : PosShape sh) :
    Valid sh (List.replicate sh.length 0) := by
  refine ⟨by simp, ?_⟩
  intro d hd
  simpa using hpos d hd

/-- The head of a nonempty list through `headD` and `get?`. -/
theorem get?_zero_headD {l : List (Cpl × Node)} (h : l ≠ []) :
    l.get? 0 = some (l.headD (0, .terminal)) := by
  cases l with
  | nil => exact absurd rfl h
  | cons a t => rfl

/-- Step lemma: a canonical branching node depends on its branching
coordinate, given injectivity for pairs of its successors. -/
theorem depends_step {sh : List ℕ} (hpos : PosShape sh) {d : ℕ}
    {succs : List (Cpl × Node)} (hc : CanonicalN sh (.node d succs))
    (hinj : ∀ p q : Cpl × Node, p ∈ succs → q ∈ succs → p ≠ q →
      ∀ lam : Cpl, lam ≠ 0 → (∀ s, Valid sh s → evalN p.2 s = lam * evalN q.2 s) →
        p.2 = q.2 ∧ lam = 1) :
    ∃ s s', Valid sh s ∧ Valid sh s' ∧ (∀ a, a ≠ d → s.getD a 0 = s'.getD a 0) ∧
      evalN (.node d succs) s ≠ evalN (.node d succs) s' := by
  obtain ⟨h1, h2, h3, h4, h5, h6⟩ := canonicalN_node_iff.mp hc
  obtain ⟨p, hp, hpne⟩ := h6
  have hne : succs ≠ [] := by rintro rfl; cases hp
  set hd := succs.headD (0, .terminal) with hhd
  have hhdmem : hd ∈ succs := List.get?_mem (get?_zero_headD hne)
  obtain ⟨j, hj⟩ := List.mem_iff_get?.mp hp
  have hjlen : j < succs.length := by
    by_contra hge
    rw [List.get?_eq_none.mpr (by omega)] at hj
    cases hj
  obtain ⟨hchd, hrhd, hzhd⟩ := h3 hd hhdmem
  obtain ⟨hcp, hrp, hzp⟩ := h3 p hp
  -- the two weighted branch functions differ somewhere on valid assignments
  have key : ∃ s, Valid sh s ∧ hd.1 * evalN hd.2 s ≠ p.1 * evalN p.2 s := by
    by_contra hno
    push_neg at hno
    by_cases hz1 : hd.1 = 0
    · by_cases hz2 : p.1 = 0
      · exact hpne (Prod.ext (by rw [hz2, hz1]) (by rw [hzp hz2, hzhd hz1]))
      · obtain ⟨s, hs, hev⟩ := evalN_exists_nonzero hpos p.2 hcp
        have := hno s hs
        rw [hz1, zero_mul] at this
        exact (mul_ne_zero hz2 hev) this.symm
    · by_cases hz2 : p.1 = 0
      · obtain ⟨s, hs, hev⟩ := evalN_exists_nonzero hpos hd.2 hchd
        have := hno s hs
        rw [hz2, zero_mul] at this
        exact (mul_ne_zero hz1 hev) this
      · have heq : ∀ s, Valid sh s → evalN hd.2 s = (p.1 / hd.1) * evalN p.2 s := by
          intro s hs
          have := hno s hs
          field_simp
          linear_combination this
        obtain ⟨hnodes, hlam⟩ := hinj hd p hhdmem hp (fun he => hpne he.symm) (p.1 / hd.1)
          (div_ne_zero hz2 hz1) heq
        have hw : p.1 = hd.1 := by
          field_simp at hlam
          exact hlam
        exact hpne (Prod.ext hw hnodes.symm)
  obtain ⟨s0, hs0, hdiff⟩ := key
  refine ⟨s0.set d 0, s0.set d j, valid_set hs0 h1 (hpos d h1),
    valid_set hs0 h1 (by omega), ?_, ?_⟩
  · intro a ha
    rw [getD_set_ne 0 ha, getD_set_ne j ha]
  · have hget0 : succs.get? ((s0.set d 0).getD d 0) = some hd := by
      rw [getD_set_self 0 (by rw [hs0.1]; exact h1)]
      exact get?_zero_headD hne
    have hgetj : succs.get? ((s0.set d j).getD d 0) = some p := by
      rw [getD_set_self j (by rw [hs0.1]; exact h1)]
      exact hj
    obtain ⟨w0, c0⟩ := hd
    obtain ⟨wj, cj⟩ := p
    rw [evalN_node_some hget0, evalN_node_some hgetj]
    have e0 : evalN c0 (s0.set d 0) = evalN c0 s0 :=
      evalN_congr c0 hchd d _ _ hrhd (fun a ha => getD_set_ne 0 (by omega))
    have ej : evalN cj (s0.set d j) = evalN cj s0 :=
      evalN_congr cj hcp d _ _ hrp (fun a ha => getD_set_ne j (by omega))
    rw [e0, ej]
    exact hdiff

/-- Step lemma: proportional evaluations force equal canonical nodes and a
unit factor, given the dependence property and injectivity below. -/
theorem inj_step {sh : List ℕ} (hpos : PosShape sh) {n1 n2 : Node}
    (hc1 : CanonicalN sh n1) (hc2 : CanonicalN sh n2)
    (hdep : ∀ m, CanonicalN sh m → sizeOf m < sizeOf n1 + sizeOf n2 →
      ∀ d succs, m = .node d succs →
      ∃ s s', Valid sh s ∧ Valid sh s' ∧ (∀ a, a ≠ d → s.getD a 0 = s'.getD a 0) ∧
        evalN m s ≠ evalN m s')
    (hinj : ∀ m1 m2, CanonicalN sh m1 → CanonicalN sh m2 →
      sizeOf m1 + sizeOf m2 < sizeOf n1 + sizeOf n2 →
      ∀ lam : Cpl, lam ≠ 0 → (∀ s, Valid sh s → evalN m1 s = lam * evalN m2 s) →
        m1 = m2 ∧ lam = 1)
    {lam : Cpl} (hlam : lam ≠ 0)
    (heq : ∀ s, Valid sh s → evalN n1 s = lam * evalN n2 s) :
    n1 = n2 ∧ lam = 1 := by
  cases n1 with
  | terminal =>
      cases n2 with
      | terminal =>
          have := heq _ (valid_replicate hpos)
          simp at this
          exact ⟨rfl, this.symm⟩
      | node d2 s2 =>
          exfalso
          obtain ⟨s, s', hs, hs', _, hne⟩ := hdep (.node d2 s2) hc2 (by simp <;> omega) d2 s2 rfl
          have e1 := heq s hs
          have e2 := heq s' hs'
          simp at e1 e2
          exact hne (mul_left_cancel₀ hlam (e1.symm.trans e2))
  | node d1 s1 =>
      cases n2 with
      | terminal =>
          exfalso
          obtain ⟨s, s', hs, hs', _, hne⟩ := hdep (.node d1 s1) hc1 (by simp <;> omega) d1 s1 rfl
          have e1 := heq s hs
          have e2 := heq s' hs'
          simp at e1 e2
          exact hne (e1.trans e2.symm)
      | node d2 s2 =>
          have hdd : d1 = d2 := by
            rcases Nat.lt_trichotomy d1 d2 with hlt | he | hgt
            · exfalso
              obtain ⟨s, s', hs, hs', hag, hne⟩ :=
                hdep (.node d1 s1) hc1 (by simp <;> omega) d1 s1 rfl
              have hinv : evalN (.node d2 s2) s = evalN (.node d2 s2) s' :=
                evalN_congr _ hc2 d1 s s' (rootGt_node.mpr hlt)
                  (fun a ha => hag a (by omega))
              exact hne (by rw [heq s hs, heq s' hs', hinv])
            · exact he
            · exfalso
              obtain ⟨s, s', hs, hs', hag, hne⟩ :=
                hdep (.node d2 s2) hc2 (by simp <;> omega) d2 s2 rfl
              have hinv : evalN (.node d1 s1) s = evalN (.node d1 s1) s' :=
                evalN_congr _ hc1 d2 s s' (rootGt_node.mpr hgt)
                  (fun a ha => hag a (by omega))
              exact hne (mul_left_cancel₀ hlam (by rw [← heq s hs, ← heq s' hs']; exact hinv))
          subst hdd
          obtain ⟨h11, h21, h31, h41, h51, h61⟩ := canonicalN_node_iff.mp hc1
          obtain ⟨h12, h22, h32, h42, h52, h62⟩ := canonicalN_node_iff.mp hc2
          have hlen : s1.length = s2.length := by rw [h21, h22]
          -- pointwise relation between successor lists
          have hpt : ∀ (v : ℕ) (hv1 : v < s1.length) (hv2 : v < s2.length),
              s1.get ⟨v, hv1⟩ = (lam * (s2.get ⟨v, hv2⟩).1, (s2.get ⟨v, hv2⟩).2) := by
            intro v hv1 hv2
            set p1 := s1.get ⟨v, hv1⟩ with hp1def
            set p2 := s2.get ⟨v, hv2⟩ with hp2def
            have hp1m : p1 ∈ s1 := List.get_mem _ _ _
            have hp2m : p2 ∈ s2 := List.get_mem _ _ _
            obtain ⟨hcp1, hrp1, hzp1⟩ := h31 p1 hp1m
            obtain ⟨hcp2, hrp2, hzp2⟩ := h32 p2 hp2m
            have hbr : ∀ s, Valid sh s →
                p1.1 * evalN p1.2 s = lam * (p2.1 * evalN p2.2 s) := by
              intro s hs
              have hvset : Valid sh (s.set d1 v) :=
                valid_set hs h11 (by rw [← h21]; exact hv1)
              have hset := heq (s.set d1 v) hvset
              have hg1 : s1.get? ((s.set d1 v).getD d1 0) = some p1 := by
                rw [getD_set_self v (by rw [hs.1]; exact h11)]
                exact List.get?_eq_get hv1
              have hg2 : s2.get? ((s.set d1 v).getD d1 0) = some p2 := by
                rw [getD_set_self v (by rw [hs.1]; exact h11)]
                exact List.get?_eq_get hv2
              obtain ⟨w1, c1⟩ := p1
              obtain ⟨w2, c2⟩ := p2
              rw [evalN_node_some hg1, evalN_node_some hg2] at hset
              have ec1 : evalN c1 (s.set d1 v) = evalN c1 s :=
                evalN_congr c1 hcp1 d1 _ _ hrp1 (fun a ha => getD_set_ne v (by omega))
              have ec2 : evalN c2 (s.set d1 v) = evalN c2 s :=
                evalN_congr c2 hcp2 d1 _ _ hrp2 (fun a ha => getD_set_ne v (by omega))
              rw [ec1, ec2] at hset
              exact hset
            by_cases hz1 : p1.1 = 0
            · have hz2 : p2.1 = 0 := by
                by_contra hz2
                obtain ⟨s, hs, hev⟩ := evalN_exists_nonzero hpos p2.2 hcp2
                have := hbr s hs
                rw [hz1, zero_mul] at this
                exact mul_ne_zero hlam (mul_ne_zero hz2 hev) this.symm
              refine Prod.ext ?_ ?_
              · rw [hz1, hz2, mul_zero]
              · rw [hzp1 hz1, hzp2 hz2]
            · have hz2 : p2.1 ≠ 0 := by
                intro hz2
                obtain ⟨s, hs, hev⟩ := evalN_exists_nonzero hpos p1.2 hcp1
                have := hbr s hs
                rw [hz2, zero_mul, mul_zero] at this
                exact mul_ne_zero hz1 hev this
              have hmu : lam * p2.1 / p1.1 ≠ 0 :=
                div_ne_zero (mul_ne_zero hlam hz2) hz1
              have hprop : ∀ s, Valid sh s →
                  evalN p1.2 s = (lam * p2.1 / p1.1) * evalN p2.2 s := by
                intro s hs
                have := hbr s hs
                field_simp
                linear_combination this
              have hsz : sizeOf p1.2 + sizeOf p2.2 < sizeOf (Node.node d1 s1) + sizeOf (Node.node d1 s2) := by
                have m1 := List.sizeOf_lt_of_mem hp1m
                have m2 := List.sizeOf_lt_of_mem hp2m
                obtain ⟨w1, c1⟩ := p1
                obtain ⟨w2, c2⟩ := p2
                simp at m1 m2 ⊢
                omega
              obtain ⟨hnd, hone⟩ := hinj p1.2 p2.2 hcp1 hcp2 hsz _ hmu hprop
              have hw : p1.1 = lam * p2.1 := by
                field_simp at hone
                exact hone.symm
              exact Prod.ext hw hnd
          -- successor lists are equal up to scaling the weights by `lam`
          have hmap : s1 = s2.map (fun q => (lam * q.1, q.2)) := by
            apply List.ext_get (by simp [hlen])
            intro v hv1 hv2
            rw [List.get_map]
            exact hpt v hv1 (by simpa using hv2)
          -- the normalization pins `lam = 1`
          have hpredeq : ((fun p : Cpl × Node => !(p.1 == 0)) ∘
              (fun q : Cpl × Node => (lam * q.1, q.2))) =
              (fun p : Cpl × Node => !(p.1 == 0)) := by
            funext q
            by_cases hq : q.1 = 0 <;> simp [Function.comp, hq, hlam, mul_eq_zero]
          have hfind : s1.find? (fun p => !(p.1 == 0)) =
              (s2.find? (fun p => !(p.1 == 0))).map (fun q => (lam * q.1, q.2)) := by
            rw [hmap, List.find?_map, hpredeq]
          obtain ⟨q2, hq2⟩ : ∃ q2, s2.find? (fun p => !(p.1 == 0)) = some q2 := by
            obtain ⟨p, hp, hpne⟩ := h42
            have : (s2.find? (fun p => !(p.1 == 0))).isSome := by
              rw [List.find?_isSome]
              exact ⟨p, hp, by simpa using hpne⟩
            exact Option.isSome_iff_exists.mp this
          rw [hfind, hq2] at h51
          rw [hq2] at h52
          simp at h51 h52
          rw [h52, mul_one] at h51
          subst h51
          refine ⟨?_, rfl⟩
          rw [hmap]
          simp

/-- Canonicity: on a positive shape, proportional evaluation on valid
assignments forces canonical nodes to coincide, with proportionality factor
1.  This is the formal content of the spec's canonical-uniqueness demand. -/
theorem canonicalN_inj {sh : List ℕ} (hpos : PosShape sh) :
    ∀ n1 n2, CanonicalN sh n1 → CanonicalN sh n2 →
      ∀ lam : Cpl, lam ≠ 0 → (∀ s, Valid sh s → evalN n1 s = lam * evalN n2 s) →
        n1 = n2 ∧ lam = 1 := by
  suffices h : ∀ k n1 n2, sizeOf n1 + sizeOf n2 ≤ k → CanonicalN sh n1 → CanonicalN sh n2 →
      ∀ lam : Cpl, lam ≠ 0 → (∀ s, Valid sh s → evalN n1 s = lam * evalN n2 s) →
        n1 = n2 ∧ lam = 1 by
    exact fun n1 n2 hc1 hc2 =>
      h (sizeOf n1 + sizeOf n2) n1 n2 le_rfl hc1 hc2
  intro k
  induction k using Nat.strong_induction_on with
  | _ k ih =>
      intro n1 n2 hsz hc1 hc2 lam hlam heq
      refine inj_step hpos hc1 hc2 ?_ ?_ hlam heq
      · -- dependence for strictly smaller canonical branching nodes
        intro m hcm hmlt d succs hmeq
        subst hmeq
        apply depends_step hpos hcm
        intro p q hp hq hpq lam' hlam' heq'
        have hcp : CanonicalN sh p.2 := ((canonicalN_node_iff.mp hcm).2.2.1 p hp).1
        have hcq : CanonicalN sh q.2 := ((canonicalN_node_iff.mp hcm).2.2.1 q hq).1
        have hpair := sizeOf_pair_lt hp hq hpq
        have hsmaller : sizeOf p.2 + sizeOf q.2 < k := by
          obtain ⟨wp, cp⟩ := p
          obtain ⟨wq, cq⟩ := q
          simp at hpair hmlt ⊢
          omega
        exact ih (sizeOf p.2 + sizeOf q.2) (by omega) p.2 q.2 le_rfl hcp hcq
          lam' hlam' heq'
      · -- injectivity for smaller pairs
        intro m1 m2 hcm1 hcm2 hlt lam' hlam' heq'
        exact ih (sizeOf m1 + sizeOf m2) (by omega) m1 m2 le_rfl hcm1 hcm2
          lam' hlam' heq'

/-- Weighted canonicity: canonical weighted nodes (weight 0 only on the
terminal) with equal denotations on all valid assignments are equal. -/
theorem canonicalW_inj {sh : List ℕ} (hpos : PosShape sh) {n1 n2 : Node} {w1 w2 : Cpl}
    (hc1 : CanonicalN sh n1) (hc2 : CanonicalN sh n2)
    (hz1 : w1 = 0 → n1 = .terminal) (hz2 : w2 = 0 → n2 = .terminal)
    (heq : ∀ s, Valid sh s → w1 * evalN n1 s = w2 * evalN n2 s) :
    n1 = n2 ∧ w1 = w2 := by
  by_cases h1 : w1 = 0
  · have h2 : w2 = 0 := by
      by_contra h2
      obtain ⟨s, hs, hev⟩ := evalN_exists_nonzero hpos n2 hc2
      have := heq s hs
      rw [h1, zero_mul] at this
      exact mul_ne_zero h2 hev this.symm
    exact ⟨by rw [hz1 h1, hz2 h2], by rw [h1, h2]⟩
  · have h2 : w2 ≠ 0 := by
      intro h2
      obtain ⟨s, hs, hev⟩ := evalN_exists_nonzero hpos n1 hc1
      have := heq s hs
      rw [h2, zero_mul] at this
      exact mul_ne_zero h1 hev this
    have hprop : ∀ s, Valid sh s → evalN n1 s = (w2 / w1) * evalN n2 s := by
      intro s hs
      have := heq s hs
      field_simp
      linear_combination this
    obtain ⟨hn, hlam⟩ := canonicalN_inj hpos n1 n2 hc1 hc2 (w2 / w1)
      (div_ne_zero h2 h1) hprop
    refine ⟨hn, ?_⟩
    field_simp at hlam
    exact hlam.symm

/-! ## Properties of `normalize` -/

namespace weighted_node

/-- The zero-redirect step of `normalize`. -/
def zred (p : Cpl × Node) : Cpl × Node := if p.1 = 0 then ((0 : Cpl), Node.terminal) else p

theorem zred_fst (p : Cpl × Node) : (zred p).1 = p.1 := by
  unfold zred
  split <;> simp_all

theorem zred_eval (p : Cpl × Node) (s : List ℕ) :
    (zred p).1 * evalN (zred p).2 s = p.1 * evalN p.2 s := by
  unfold zred
  split <;> simp_all

theorem normalize_def (d : ℕ) (succs : List (Cpl × Node)) :
    normalize d succs =
      (let zs := succs.map zred
      if zs.all (fun p => p.1 == 0) then (Node.terminal, 0)
      else if zs.all (fun p => p == zs.headD (0, Node.terminal)) then
        ((zs.headD (0, Node.terminal)).2, (zs.headD (0, Node.terminal)).1)
      else
        let w0 := ((zs.find? (fun p => !(p.1 == 0))).getD (1, Node.terminal)).1
        (Node.node d (zs.map (fun p => (p.1 / w0, p.2))), w0)) := rfl

/-- `normalize` preserves the weighted denotation wherever the branch value is
in range. -/
theorem normalize_eval (d : ℕ) (succs : List (Cpl × Node)) (s : List ℕ)
    (hv : s.getD d 0 < succs.length) :
    (normalize d succs).2 * evalN (normalize d succs).1 s =
      evalN (.node d succs) s := by
  rw [normalize_def]
  have hg : succs.get? (s.getD d 0) = some (succs.get ⟨s.getD d 0, hv⟩) :=
    List.get?_eq_get hv
  set p := succs.get ⟨s.getD d 0, hv⟩ with hpdef
  have hgz : (succs.map zred).get? (s.getD d 0) = some (zred p) := by
    rw [List.get?_map, hg]
    rfl
  rw [evalN_node_some hg]
  simp only []
  split_ifs with hall hcoll
  · -- all weights zero
    have hz : p.1 = 0 := by
      have := List.all_eq_true.mp hall (zred p) (List.get?_mem hgz)
      rw [zred_fst] at this
      exact beq_iff_eq.mp this
    rw [hz]
    simp
  · -- all successor edges equal: collapsed to the shared edge
    have hcp : zred p = (succs.map zred).headD (0, Node.terminal) :=
      beq_iff_eq.mp (List.all_eq_true.mp hcoll (zred p) (List.get?_mem hgz))
    rw [← hcp]
    exact zred_eval p s
  · -- factor out the first nonzero weight
    have hfind : ∃ q, (succs.map zred).find? (fun p => !(p.1 == 0)) = some q := by
      apply Option.isSome_iff_exists.mp
      rw [List.find?_isSome]
      have hex : ∃ x, x ∈ succs.map zred ∧ ¬((fun p : Cpl × Node => p.1 == 0) x = true) :=
        List.all_eq_false.mp (Bool.eq_false_iff.mpr hall)
      obtain ⟨x, hx, hxne⟩ := hex
      exact ⟨x, hx, by simpa using hxne⟩
    obtain ⟨q, hq⟩ := hfind
    have hw0 : q.1 ≠ 0 := by simpa using List.find?_some hq
    rw [hq]
    have hgm : ((succs.map zred).map
        (fun p => (p.1 / ((some q).getD (1, Node.terminal)).1, p.2))).get?
          (s.getD d 0) = some ((zred p).1 / q.1, (zred p).2) := by
      rw [List.get?_map, hgz]
      rfl
    rw [evalN_node_some hgm]
    rw [← zred_eval p s]
    field_simp

end weighted_node

namespace weighted_node

theorem zred_zero {p : Cpl × Node} (h : (zred p).1 = 0) : (zred p).2 = .terminal := by
  unfold zred at h ⊢
  split at h <;> split <;> simp_all

/-- `normalize` produces a canonical node: given in-range depth and arity and
canonical, strictly deeper successors, the result is canonical, has a
terminal node whenever its weight is zero, and branches strictly below any
bound below `d`. -/
theorem normalize_canonical {sh : List ℕ} {d : ℕ} {succs : List (Cpl × Node)}
    (hd : d < sh.length) (hlen : succs.length = sh.getD d 0)
    (hch : ∀ p ∈ succs, CanonicalN sh p.2 ∧ RootGt d p.2) :
    CanonicalN sh (normalize d succs).1 ∧
    ((normalize d succs).2 = 0 → (normalize d succs).1 = .terminal) ∧
    (∀ k, k < d → RootGt k (normalize d succs).1) := by
  rw [normalize_def]
  simp only []
  have hchz : ∀ z ∈ succs.map zred, CanonicalN sh z.2 ∧ RootGt d z.2 ∧
      (z.1 = 0 → z.2 = .terminal) := by
    intro z hz
    obtain ⟨p, hp, rfl⟩ := List.mem_map.mp hz
    refine ⟨?_, ?_, fun h0 => zred_zero h0⟩
    · unfold zred
      split
      · exact canonicalN_terminal sh
      · exact (hch p hp).1
    · unfold zred
      split
      · exact rootGt_terminal d
      · exact (hch p hp).2
  split_ifs with hall hcoll
  · exact ⟨canonicalN_terminal sh, fun _ => rfl, fun k _ => rootGt_terminal k⟩
  · -- collapse: the shared successor edge
    have hne : succs.map zred ≠ [] := by
      intro he
      rw [he] at hall
      simp at hall
    have hh0 : (succs.map zred).get? 0 = some ((succs.map zred).headD (0, .terminal)) :=
      get?_zero_headD hne
    have hh0m : (succs.map zred).headD (0, .terminal) ∈ succs.map zred :=
      List.get?_mem hh0
    obtain ⟨hc0, hr0, hz0⟩ := hchz _ hh0m
    have hwne : ((succs.map zred).headD (0, .terminal)).1 ≠ 0 := by
      intro h0
      apply hall
      rw [List.all_eq_true]
      intro z hz
      have := beq_iff_eq.mp (List.all_eq_true.mp hcoll z hz)
      rw [this, h0]
      exact beq_self_eq_true 0
    exact ⟨hc0, fun h0 => absurd h0 hwne, fun k hk => rootGt_mono hr0 (by omega)⟩
  · -- factored node
    have hfind : ∃ q, (succs.map zred).find? (fun p => !(p.1 == 0)) = some q := by
      apply Option.isSome_iff_exists.mp
      rw [List.find?_isSome]
      have hex : ∃ x, x ∈ succs.map zred ∧ ¬((fun p : Cpl × Node => p.1 == 0) x = true) :=
        List.all_eq_false.mp (Bool.eq_false_iff.mpr hall)
      obtain ⟨x, hx, hxne⟩ := hex
      exact ⟨x, hx, by simpa using hxne⟩
    obtain ⟨q, hq⟩ := hfind
    have hqm : q ∈ succs.map zred := List.mem_of_find?_eq_some hq
    have hw0 : q.1 ≠ 0 := by simpa using List.find?_some hq
    rw [hq]
    refine ⟨?_, fun h0 => absurd h0 hw0, fun k hk => rootGt_node.mpr hk⟩
    rw [canonicalN_node_iff]
    have hzne : succs.map zred ≠ [] := by
      intro he
      rw [he] at hqm
      cases hqm
    have hglen : ((succs.map zred).map
        (fun p => (p.1 / ((some q).getD ((1 : Cpl), Node.terminal)).1, p.2))).length =
        succs.length := by simp
    refine ⟨hd, by rw [hglen, hlen], ?_, ?_, ?_, ?_⟩
    · intro p' hp'
      obtain ⟨z, hz, rfl⟩ := List.mem_map.mp hp'
      obtain ⟨hcz, hrz, hzz⟩ := hchz z hz
      refine ⟨hcz, hrz, ?_⟩
      intro h0
      apply hzz
      simp only [Option.getD_some] at h0
      rcases div_eq_zero_iff.mp h0 with h | h
      · exact h
      · exact absurd h hw0
    · refine ⟨(q.1 / ((some q).getD ((1 : Cpl), Node.terminal)).1, q.2), List.mem_map_of_mem _ hqm, ?_⟩
      simp only [Option.getD_some]
      exact div_ne_zero hw0 hw0
    · have hpredeq : ((fun p : Cpl × Node => !(p.1 == 0)) ∘
          (fun p : Cpl × Node => (p.1 / ((some q).getD ((1 : Cpl), Node.terminal)).1, p.2))) =
          (fun p : Cpl × Node => !(p.1 == 0)) := by
        funext z
        simp only [Function.comp, Option.getD_some]
        by_cases hz : z.1 = 0
        · simp [hz]
        · simp [hz, div_eq_zero_iff, hw0]
      rw [List.find?_map, hpredeq, hq]
      simp only [Option.map_some, Option.getD_some]
      exact div_self hw0
    · have hex : ∃ z, z ∈ succs.map zred ∧
          ¬((fun p : Cpl × Node =>
              p == (succs.map zred).headD (0, Node.terminal)) z = true) :=
        List.all_eq_false.mp (Bool.eq_false_iff.mpr hcoll)
      obtain ⟨z, hz, hzne'⟩ := hex
      have hzneq : z ≠ (succs.map zred).headD (0, Node.terminal) := by
        simpa using hzne'
      set g := fun p : Cpl × Node =>
        (p.1 / ((some q).getD ((1 : Cpl), Node.terminal)).1, p.2) with hg
      refine ⟨g z, List.mem_map_of_mem _ hz, ?_⟩
      have hheadD : ((succs.map zred).map g).headD (0, Node.terminal) =
          g ((succs.map zred).headD (0, Node.terminal)) := by
        cases he : succs.map zred with
        | nil => exact absurd he hzne
        | cons a t => rfl
      rw [hheadD]
      intro he
      apply hzneq
      have h1 : z.1 / q.1 = ((succs.map zred).headD (0, Node.terminal)).1 / q.1 := by
        have := congrArg Prod.fst he
        simpa [hg] using this
      have h2 : z.2 = ((succs.map zred).headD (0, Node.terminal)).2 := by
        have := congrArg Prod.snd he
        simpa [hg] using this
      refine Prod.ext ?_ h2
      have := congrArg (fun x => x * q.1) h1
      simpa [div_mul_cancel₀, hw0] using this

end weighted_node

/-! ## Properties of `weighted_node.sum` -/

namespace weighted_node

theorem sum_tt (w1 w2 : Cpl) :
    sum (.terminal, w1) (.terminal, w2) = (.terminal, w1 + w2) := by
  rw [sum]

theorem sum_tn (w1 : Cpl) (d2 : ℕ) (s2 : List (Cpl × Node)) (w2 : Cpl) :
    sum (.terminal, w1) (.node d2 s2, w2) =
      normalize d2 (s2.map (fun q =>
        let r := sum (.terminal, w1) (q.2, w2 * q.1); (r.2, r.1))) := by
  rw [sum]
  exact congrArg _ (List.attach_map_coe s2
    (fun q => let r := sum (.terminal, w1) (q.2, w2 * q.1); (r.2, r.1)))

theorem sum_nt (d1 : ℕ) (s1 : List (Cpl × Node)) (w1 w2 : Cpl) :
    sum (.node d1 s1, w1) (.terminal, w2) =
      normalize d1 (s1.map (fun q =>
        let r := sum (q.2, w1 * q.1) (.terminal, w2); (r.2, r.1))) := by
  rw [sum]
  exact congrArg _ (List.attach_map_coe s1
    (fun q => let r := sum (q.2, w1 * q.1) (.terminal, w2); (r.2, r.1)))

theorem sum_nn_lt {d1 d2 : ℕ} (hlt : d1 < d2) (s1 s2 : List (Cpl × Node)) (w1 w2 : Cpl) :
    sum (.node d1 s1, w1) (.node d2 s2, w2) =
      normalize d1 (s1.map (fun q =>
        let r := sum (q.2, w1 * q.1) (.node d2 s2, w2); (r.2, r.1))) := by
  rw [sum]
  simp only [if_pos hlt]
  exact congrArg _ (List.attach_map_coe s1
    (fun q => let r := sum (q.2, w1 * q.1) (.node d2 s2, w2); (r.2, r.1)))

theorem sum_nn_gt {d1 d2 : ℕ} (hgt : d2 < d1) (s1 s2 : List (Cpl × Node)) (w1 w2 : Cpl) :
    sum (.node d1 s1, w1) (.node d2 s2, w2) =
      normalize d2 (s2.map (fun q =>
        let r := sum (.node d1 s1, w1) (q.2, w2 * q.1); (r.2, r.1))) := by
  rw [sum]
  simp only [if_neg (by omega : ¬ d1 < d2), if_pos hgt]
  exact congrArg _ (List.attach_map_coe s2
    (fun q => let r := sum (.node d1 s1, w1) (q.2, w2 * q.1); (r.2, r.1)))

theorem sum_nn_eq {d : ℕ} (s1 s2 : List (Cpl × Node)) (w1 w2 : Cpl) :
    sum (.node d s1, w1) (.node d s2, w2) =
      normalize d ((s1.zip s2).map (fun q =>
        let r := sum (q.1.2, w1 * q.1.1) (q.2.2, w2 * q.2.1); (r.2, r.1))) := by
  rw [sum]
  rw [if_neg (lt_irrefl d), if_neg (lt_irrefl d)]
  exact congrArg _ (List.attach_map_coe (s1.zip s2)
    (fun q => let r := sum (q.1.2, w1 * q.1.1) (q.2.2, w2 * q.2.1); (r.2, r.1)))

end weighted_node

namespace weighted_node

/-- `sum` preserves canonicity; its result branches strictly below any bound
both operands branch strictly below, and a zero result weight forces the
terminal. -/
theorem sum_canonical {sh : List ℕ} :
    ∀ a b : Node × Cpl, CanonicalN sh a.1 → CanonicalN sh b.1 →
      CanonicalN sh (sum a b).1 ∧ ((sum a b).2 = 0 → (sum a b).1 = .terminal) ∧
      (∀ k, RootGt k a.1 → RootGt k b.1 → RootGt k (sum a b).1) := by
  suffices h : ∀ kk (a b : Node × Cpl), sizeOf a.1 + sizeOf b.1 ≤ kk →
      CanonicalN sh a.1 → CanonicalN sh b.1 →
      CanonicalN sh (sum a b).1 ∧ ((sum a b).2 = 0 → (sum a b).1 = .terminal) ∧
      (∀ k, RootGt k a.1 → RootGt k b.1 → RootGt k (sum a b).1) by
    exact fun a b => h (sizeOf a.1 + sizeOf b.1) a b le_rfl
  intro kk
  induction kk using Nat.strong_induction_on with
  | _ kk ih =>
      rintro ⟨n1, w1⟩ ⟨n2, w2⟩ hsz hc1 hc2
      cases n1 with
      | terminal =>
          cases n2 with
          | terminal =>
              rw [sum_tt]
              exact ⟨canonicalN_terminal sh, fun _ => rfl, fun k _ _ => rootGt_terminal k⟩
          | node d2 s2 =>
              rw [sum_tn]
              obtain ⟨hd2, hlen2, hch2, _⟩ := canonicalN_node_iff.mp hc2
              have hmap : ∀ p ∈ s2.map (fun q =>
                  let r := sum (Node.terminal, w1) (q.2, w2 * q.1); (r.2, r.1)),
                  CanonicalN sh p.2 ∧ RootGt d2 p.2 := by
                intro p hp
                obtain ⟨q, hq, rfl⟩ := List.mem_map.mp hp
                obtain ⟨hcq, hrq, _⟩ := hch2 q hq
                have hsub := ih (sizeOf (Node.terminal) + sizeOf q.2)
                  (by
                    have := List.sizeOf_lt_of_mem hq
                    obtain ⟨wq, cq⟩ := q
                    simp at this hsz ⊢
                    omega)
                  (Node.terminal, w1) (q.2, w2 * q.1) le_rfl (canonicalN_terminal sh) hcq
                exact ⟨hsub.1, hsub.2.2 d2 (rootGt_terminal d2) hrq⟩
              have hnorm := normalize_canonical hd2 (by simpa using hlen2) hmap
              exact ⟨hnorm.1, hnorm.2.1,
                fun k _ hk2 => hnorm.2.2 k (rootGt_node.mp hk2)⟩
      | node d1 s1 =>
          cases n2 with
          | terminal =>
              rw [sum_nt]
              obtain ⟨hd1, hlen1, hch1, _⟩ := canonicalN_node_iff.mp hc1
              have hmap : ∀ p ∈ s1.map (fun q =>
                  let r := sum (q.2, w1 * q.1) (Node.terminal, w2); (r.2, r.1)),
                  CanonicalN sh p.2 ∧ RootGt d1 p.2 := by
                intro p hp
                obtain ⟨q, hq, rfl⟩ := List.mem_map.mp hp
                obtain ⟨hcq, hrq, _⟩ := hch1 q hq
                have hsub := ih (sizeOf q.2 + sizeOf (Node.terminal))
                  (by
                    have := List.sizeOf_lt_of_mem hq
                    obtain ⟨wq, cq⟩ := q
                    simp at this hsz ⊢
                    omega)
                  (q.2, w1 * q.1) (Node.terminal, w2) le_rfl hcq (canonicalN_terminal sh)
                exact ⟨hsub.1, hsub.2.2 d1 hrq (rootGt_terminal d1)⟩
              have hnorm := normalize_canonical hd1 (by simpa using hlen1) hmap
              exact ⟨hnorm.1, hnorm.2.1,
                fun k hk1 _ => hnorm.2.2 k (rootGt_node.mp hk1)⟩
          | node d2 s2 =>
              obtain ⟨hd1, hlen1, hch1, _⟩ := canonicalN_node_iff.mp hc1
              obtain ⟨hd2, hlen2, hch2, _⟩ := canonicalN_node_iff.mp hc2
              rcases Nat.lt_trichotomy d1 d2 with hlt | heq | hgt
              · rw [sum_nn_lt hlt]
                have hmap : ∀ p ∈ s1.map (fun q =>
                    let r := sum (q.2, w1 * q.1) (Node.node d2 s2, w2); (r.2, r.1)),
                    CanonicalN sh p.2 ∧ RootGt d1 p.2 := by
                  intro p hp
                  obtain ⟨q, hq, rfl⟩ := List.mem_map.mp hp
                  obtain ⟨hcq, hrq, _⟩ := hch1 q hq
                  have hsub := ih (sizeOf q.2 + sizeOf (Node.node d2 s2))
                    (by
                      have := List.sizeOf_lt_of_mem hq
                      obtain ⟨wq, cq⟩ := q
                      simp at this hsz ⊢
                      omega)
                    (q.2, w1 * q.1) (Node.node d2 s2, w2) le_rfl hcq hc2
                  exact ⟨hsub.1, hsub.2.2 d1 hrq (rootGt_node.mpr hlt)⟩
                have hnorm := normalize_canonical hd1 (by simpa using hlen1) hmap
                exact ⟨hnorm.1, hnorm.2.1,
                  fun k hk1 _ => hnorm.2.2 k (rootGt_node.mp hk1)⟩
              · subst heq
                rw [sum_nn_eq]
                have hmap : ∀ p ∈ (s1.zip s2).map (fun q =>
                    let r := sum (q.1.2, w1 * q.1.1) (q.2.2, w2 * q.2.1); (r.2, r.1)),
                    CanonicalN sh p.2 ∧ RootGt d1 p.2 := by
                  intro p hp
                  obtain ⟨q, hq, rfl⟩ := List.mem_map.mp hp
                  obtain ⟨hq1, hq2⟩ := List.of_mem_zip hq
                  obtain ⟨hcq1, hrq1, _⟩ := hch1 q.1 hq1
                  obtain ⟨hcq2, hrq2, _⟩ := hch2 q.2 hq2
                  have hsub := ih (sizeOf q.1.2 + sizeOf q.2.2)
                    (by
                      have m1 := List.sizeOf_lt_of_mem hq1
                      have m2 := List.sizeOf_lt_of_mem hq2
                      obtain ⟨⟨wa, ca⟩, wb, cb⟩ := q
                      simp at m1 m2 hsz ⊢
                      omega)
                    (q.1.2, w1 * q.1.1) (q.2.2, w2 * q.2.1) le_rfl hcq1 hcq2
                  exact ⟨hsub.1, hsub.2.2 d1 hrq1 hrq2⟩
                have hnorm := normalize_canonical hd1
                  (by simp [hlen1, hlen2]) hmap
                exact ⟨hnorm.1, hnorm.2.1,
                  fun k hk1 _ => hnorm.2.2 k (rootGt_node.mp hk1)⟩
              · rw [sum_nn_gt hgt]
                have hmap : ∀ p ∈ s2.map (fun q =>
                    let r := sum (Node.node d1 s1, w1) (q.2, w2 * q.1); (r.2, r.1)),
                    CanonicalN sh p.2 ∧ RootGt d2 p.2 := by
                  intro p hp
                  obtain ⟨q, hq, rfl⟩ := List.mem_map.mp hp
                  obtain ⟨hcq, hrq, _⟩ := hch2 q hq
                  have hsub := ih (sizeOf (Node.node d1 s1) + sizeOf q.2)
                    (by
                      have := List.sizeOf_lt_of_mem hq
                      obtain ⟨wq, cq⟩ := q
                      simp at this hsz ⊢
                      omega)
                    (Node.node d1 s1, w1) (q.2, w2 * q.1) le_rfl hc1 hcq
                  exact ⟨hsub.1, hsub.2.2 d2 (rootGt_node.mpr hgt) hrq⟩
                have hnorm := normalize_canonical hd2 (by simpa using hlen2) hmap
                exact ⟨hnorm.1, hnorm.2.1,
                  fun k _ hk2 => hnorm.2.2 k (rootGt_node.mp hk2)⟩

end weighted_node

namespace weighted_node

/-- `sum` computes pointwise addition of weighted denotations on valid
assignments. -/
theorem sum_eval {sh : List ℕ} :
    ∀ a b : Node × Cpl, CanonicalN sh a.1 → CanonicalN sh b.1 →
      ∀ s, Valid sh s →
        (sum a b).2 * evalN (sum a b).1 s = a.2 * evalN a.1 s + b.2 * evalN b.1 s := by
  suffices h : ∀ kk (a b : Node × Cpl), sizeOf a.1 + sizeOf b.1 ≤ kk →
      CanonicalN sh a.1 → CanonicalN sh b.1 → ∀ s, Valid sh s →
        (sum a b).2 * evalN (sum a b).1 s = a.2 * evalN a.1 s + b.2 * evalN b.1 s by
    exact fun a b => h (sizeOf a.1 + sizeOf b.1) a b le_rfl
  intro kk
  induction kk using Nat.strong_induction_on with
  | _ kk ih =>
      rintro ⟨n1, w1⟩ ⟨n2, w2⟩ hsz hc1 hc2 s hs
      cases n1 with
      | terminal =>
          cases n2 with
          | terminal =>
              rw [sum_tt]
              simp
          | node d2 s2 =>
              rw [sum_tn]
              obtain ⟨hd2, hlen2, hch2, _⟩ := canonicalN_node_iff.mp hc2
              have hvlt : s.getD d2 0 < s2.length := by
                rw [hlen2]
                exact hs.2 d2 hd2
              have hmb : s.getD d2 0 < (s2.map (fun q =>
                  let r := sum (Node.terminal, w1) (q.2, w2 * q.1); (r.2, r.1))).length := by
                simpa using hvlt
              rw [normalize_eval _ _ s hmb]
              have hg2 : s2.get? (s.getD d2 0) = some (s2.get ⟨s.getD d2 0, hvlt⟩) :=
                List.get?_eq_get hvlt
              set q := s2.get ⟨s.getD d2 0, hvlt⟩ with hqdef
              have hgm : (s2.map (fun q =>
                  let r := sum (Node.terminal, w1) (q.2, w2 * q.1); (r.2, r.1))).get?
                    (s.getD d2 0) =
                  some ((sum (Node.terminal, w1) (q.2, w2 * q.1)).2,
                    (sum (Node.terminal, w1) (q.2, w2 * q.1)).1) := by
                rw [List.get?_map, hg2]
                rfl
              rw [evalN_node_some hgm, evalN_node_some hg2]
              obtain ⟨hcq, _, _⟩ := hch2 q (List.get?_mem hg2)
              have hrec := ih (sizeOf (Node.terminal) + sizeOf q.2)
                (by
                  have := List.sizeOf_lt_of_mem (List.get?_mem hg2)
                  obtain ⟨wq, cq⟩ := q
                  simp at this hsz ⊢
                  omega)
                (Node.terminal, w1) (q.2, w2 * q.1) le_rfl (canonicalN_terminal sh) hcq s hs
              simp only [evalN_terminal] at hrec ⊢
              rw [hrec]
              ring
      | node d1 s1 =>
          cases n2 with
          | terminal =>
              rw [sum_nt]
              obtain ⟨hd1, hlen1, hch1, _⟩ := canonicalN_node_iff.mp hc1
              have hvlt : s.getD d1 0 < s1.length := by
                rw [hlen1]
                exact hs.2 d1 hd1
              have hmb : s.getD d1 0 < (s1.map (fun q =>
                  let r := sum (q.2, w1 * q.1) (Node.terminal, w2); (r.2, r.1))).length := by
                simpa using hvlt
              rw [normalize_eval _ _ s hmb]
              have hg1 : s1.get? (s.getD d1 0) = some (s1.get ⟨s.getD d1 0, hvlt⟩) :=
                List.get?_eq_get hvlt
              set q := s1.get ⟨s.getD d1 0, hvlt⟩ with hqdef
              have hgm : (s1.map (fun q =>
                  let r := sum (q.2, w1 * q.1) (Node.terminal, w2); (r.2, r.1))).get?
                    (s.getD d1 0) =
                  some ((sum (q.2, w1 * q.1) (Node.terminal, w2)).2,
                    (sum (q.2, w1 * q.1) (Node.terminal, w2)).1) := by
                rw [List.get?_map, hg1]
                rfl
              rw [evalN_node_some hgm, evalN_node_some hg1]
              obtain ⟨hcq, _, _⟩ := hch1 q (List.get?_mem hg1)
              have hrec := ih (sizeOf q.2 + sizeOf (Node.terminal))
                (by
                  have := List.sizeOf_lt_of_mem (List.get?_mem hg1)
                  obtain ⟨wq, cq⟩ := q
                  simp at this hsz ⊢
                  omega)
                (q.2, w1 * q.1) (Node.terminal, w2) le_rfl hcq (canonicalN_terminal sh) s hs
              simp only [evalN_terminal] at hrec ⊢
              rw [hrec]
              ring
          | node d2 s2 =>
              obtain ⟨hd1, hlen1, hch1, _⟩ := canonicalN_node_iff.mp hc1
              obtain ⟨hd2, hlen2, hch2, _⟩ := canonicalN_node_iff.mp hc2
              rcases Nat.lt_trichotomy d1 d2 with hlt | heq | hgt
              · rw [sum_nn_lt hlt]
                have hvlt : s.getD d1 0 < s1.length := by
                  rw [hlen1]
                  exact hs.2 d1 hd1
                have hmb : s.getD d1 0 < (s1.map (fun q =>
                    let r := sum (q.2, w1 * q.1) (Node.node d2 s2, w2); (r.2, r.1))).length := by
                  simpa using hvlt
                rw [normalize_eval _ _ s hmb]
                have hg1 : s1.get? (s.getD d1 0) = some (s1.get ⟨s.getD d1 0, hvlt⟩) :=
                  List.get?_eq_get hvlt
                set q := s1.get ⟨s.getD d1 0, hvlt⟩ with hqdef
                have hgm : (s1.map (fun q =>
                    let r := sum (q.2, w1 * q.1) (Node.node d2 s2, w2); (r.2, r.1))).get?
                      (s.getD d1 0) =
                    some ((sum (q.2, w1 * q.1) (Node.node d2 s2, w2)).2,
                      (sum (q.2, w1 * q.1) (Node.node d2 s2, w2)).1) := by
                  rw [List.get?_map, hg1]
                  rfl
                rw [evalN_node_some hgm, evalN_node_some hg1]
                obtain ⟨hcq, _, _⟩ := hch1 q (List.get?_mem hg1)
                have hrec := ih (sizeOf q.2 + sizeOf (Node.node d2 s2))
                  (by
                    have := List.sizeOf_lt_of_mem (List.get?_mem hg1)
                    obtain ⟨wq, cq⟩ := q
                    simp at this hsz ⊢
                    omega)
                  (q.2, w1 * q.1) (Node.node d2 s2, w2) le_rfl hcq hc2 s hs
                rw [hrec]
                ring
              · subst heq
                rw [sum_nn_eq]
                have hvlt1 : s.getD d1 0 < s1.length := by
                  rw [hlen1]
                  exact hs.2 d1 hd1
                have hvlt2 : s.getD d1 0 < s2.length := by
                  rw [hlen2]
                  exact hs.2 d1 hd1
                have hmb : s.getD d1 0 < ((s1.zip s2).map (fun q =>
                    let r := sum (q.1.2, w1 * q.1.1) (q.2.2, w2 * q.2.1); (r.2, r.1))).length := by
                  rw [List.length_map, List.length_zip]
                  omega
                rw [normalize_eval _ _ s hmb]
                have hg1 : s1.get? (s.getD d1 0) = some (s1.get ⟨s.getD d1 0, hvlt1⟩) :=
                  List.get?_eq_get hvlt1
                have hg2 : s2.get? (s.getD d1 0) = some (s2.get ⟨s.getD d1 0, hvlt2⟩) :=
                  List.get?_eq_get hvlt2
                set q1 := s1.get ⟨s.getD d1 0, hvlt1⟩ with hq1def
                set q2 := s2.get ⟨s.getD d1 0, hvlt2⟩ with hq2def
                have hgz : (s1.zip s2).get? (s.getD d1 0) = some (q1, q2) := by
                  rw [List.get?_eq_getElem?] at hg1 hg2 ⊢
                  rw [List.getElem?_zip_eq_some]
                  exact ⟨hg1, hg2⟩
                have hgm : ((s1.zip s2).map (fun q =>
                    let r := sum (q.1.2, w1 * q.1.1) (q.2.2, w2 * q.2.1); (r.2, r.1))).get?
                      (s.getD d1 0) =
                    some ((sum (q1.2, w1 * q1.1) (q2.2, w2 * q2.1)).2,
                      (sum (q1.2, w1 * q1.1) (q2.2, w2 * q2.1)).1) := by
                  rw [List.get?_map, hgz]
                  rfl
                rw [evalN_node_some hgm, evalN_node_some hg1, evalN_node_some hg2]
                obtain ⟨hcq1, _, _⟩ := hch1 q1 (List.get?_mem hg1)
                obtain ⟨hcq2, _, _⟩ := hch2 q2 (List.get?_mem hg2)
                have hrec := ih (sizeOf q1.2 + sizeOf q2.2)
                  (by
                    have m1 := List.sizeOf_lt_of_mem (List.get?_mem hg1)
                    have m2 := List.sizeOf_lt_of_mem (List.get?_mem hg2)
                    obtain ⟨wa, ca⟩ := q1
                    obtain ⟨wb, cb⟩ := q2
                    simp at m1 m2 hsz ⊢
                    omega)
                  (q1.2, w1 * q1.1) (q2.2, w2 * q2.1) le_rfl hcq1 hcq2 s hs
                rw [hrec]
                ring
              · rw [sum_nn_gt hgt]
                have hvlt : s.getD d2 0 < s2.length := by
                  rw [hlen2]
                  exact hs.2 d2 hd2
                have hmb : s.getD d2 0 < (s2.map (fun q =>
                    let r := sum (Node.node d1 s1, w1) (q.2, w2 * q.1); (r.2, r.1))).length := by
                  simpa using hvlt
                rw [normalize_eval _ _ s hmb]
                have hg2 : s2.get? (s.getD d2 0) = some (s2.get ⟨s.getD d2 0, hvlt⟩) :=
                  List.get?_eq_get hvlt
                set q := s2.get ⟨s.getD d2 0, hvlt⟩ with hqdef
                have hgm : (s2.map (fun q =>
                    let r := sum (Node.node d1 s1, w1) (q.2, w2 * q.1); (r.2, r.1))).get?
                      (s.getD d2 0) =
                    some ((sum (Node.node d1 s1, w1) (q.2, w2 * q.1)).2,
                      (sum (Node.node d1 s1, w1) (q.2, w2 * q.1)).1) := by
                  rw [List.get?_map, hg2]
                  rfl
                rw [evalN_node_some hgm, evalN_node_some hg2]
                obtain ⟨hcq, _, _⟩ := hch2 q (List.get?_mem hg2)
                have hrec := ih (sizeOf (Node.node d1 s1) + sizeOf q.2)
                  (by
                    have := List.sizeOf_lt_of_mem (List.get?_mem hg2)
                    obtain ⟨wq, cq⟩ := q
                    simp at this hsz ⊢
                    omega)
                  (Node.node d1 s1, w1) (q.2, w2 * q.1) le_rfl hc1 hcq s hs
                rw [hrec]
                ring

end weighted_node

/-! ## Position bookkeeping for `index` -/

/-- The depth shift applied by `weighted_node.indexCore` below depth `d`. -/
def posBelow (pairs : List (ℕ × ℕ)) (d : ℕ) : ℕ :=
  (pairs.filter (fun pv => pv.1 < d)).length

/-- Well-formed position/value pairs for indexing into storage shape `sh`:
pairwise distinct in-range positions, in-range branch values. -/
def IndexPairsOk (sh : List ℕ) (pairs : List (ℕ × ℕ)) : Prop :=
  (pairs.map (fun pv => pv.1)).Nodup ∧
  ∀ pv ∈ pairs, pv.1 < sh.length ∧ pv.2 < sh.getD pv.1 0

instance (sh : List ℕ) (pairs : List (ℕ × ℕ)) : Decidable (IndexPairsOk sh pairs) := by
  unfold IndexPairsOk; infer_instance

/-- The storage shape after removing the indexed positions. -/
def reducedShape (sh : List ℕ) (pairs : List (ℕ × ℕ)) : List ℕ :=
  ((List.range sh.length).filter (fun i => !(pairs.any (fun pv => pv.1 == i)))).map
    (fun i => sh.getD i 0)

/-- A reduced-shape assignment re-expanded over the original shape: indexed
positions take their fixed values, surviving positions read the reduced
assignment at their shifted location. -/
def expandAssign (sh : List ℕ) (pairs : List (ℕ × ℕ)) (s' : List ℕ) : List ℕ :=
  (List.range sh.length).map (fun a =>
    match pairs.find? (fun pv => pv.1 == a) with
    | some pv => pv.2
    | none => s'.getD (a - posBelow pairs a) 0)

theorem posBelow_split (pairs : List (ℕ × ℕ)) {a b : ℕ} (hab : a ≤ b) :
    posBelow pairs b =
      posBelow pairs a + (pairs.filter (fun pv => a ≤ pv.1 ∧ pv.1 < b)).length := by
  unfold posBelow
  induction pairs with
  | nil => simp
  | cons p t ih =>
      by_cases h1 : p.1 < a <;> by_cases h2 : p.1 < b <;>
        simp [List.filter_cons, h1, h2, Bool.decide_and,
          (by omega : (a ≤ p.1 ∧ p.1 < b) ↔ (¬ p.1 < a ∧ p.1 < b))] <;>
        simp_all [Bool.decide_and] <;> omega

/-- Distinct positions below `m` number at most `m`. -/
theorem posBelow_le {pairs : List (ℕ × ℕ)}
    (hnd : (pairs.map (fun pv => pv.1)).Nodup) (m : ℕ) : posBelow pairs m ≤ m := by
  unfold posBelow
  set l := (pairs.filter (fun pv => pv.1 < m)).map (fun pv => pv.1) with hl
  have hlen : (pairs.filter (fun pv => pv.1 < m)).length = l.length := by simp [hl]
  rw [hlen]
  have hnd' : l.Nodup := by
    apply List.Nodup.sublist _ hnd
    exact List.Sublist.map _ (List.filter_sublist _)
  have hmem : ∀ x ∈ l, x ∈ Finset.range m := by
    intro x hx
    rw [hl] at hx
    obtain ⟨pv, hpv, rfl⟩ := List.mem_map.mp hx
    have h := List.of_mem_filter hpv
    simp at h
    simpa using h
  calc l.length = l.toFinset.card := (List.toFinset_card_of_nodup hnd').symm
    _ ≤ (Finset.range m).card := by
        apply Finset.card_le_card
        intro x hx
        exact hmem x (List.mem_toFinset.mp hx)
    _ = m := by rw [Finset.card_range]

/-- Distinct positions, none equal to `a`, lying in `[a, b)`, number at most
`b - a - 1`. -/
theorem interval_count {pairs : List (ℕ × ℕ)} (hnd : (pairs.map (fun pv => pv.1)).Nodup)
    {a b : ℕ} (hab : a < b) (hfree : ∀ pv ∈ pairs, pv.1 ≠ a) :
    (pairs.filter (fun pv => a ≤ pv.1 ∧ pv.1 < b)).length ≤ b - a - 1 := by
  set l := (pairs.filter (fun pv => a ≤ pv.1 ∧ pv.1 < b)).map (fun pv => pv.1) with hl
  have hlen : (pairs.filter (fun pv => a ≤ pv.1 ∧ pv.1 < b)).length = l.length := by
    simp [hl]
  rw [hlen]
  have hnd' : l.Nodup := by
    apply List.Nodup.sublist _ hnd
    exact List.Sublist.map _ (List.filter_sublist _)
  have hmem : ∀ x ∈ l, x ∈ Finset.Ioo a b := by
    intro x hx
    rw [hl] at hx
    obtain ⟨pv, hpv, rfl⟩ := List.mem_map.mp hx
    have h := List.of_mem_filter hpv
    simp at h
    have := hfree pv (List.mem_of_mem_filter hpv)
    rw [Finset.mem_Ioo]
    omega
  calc l.length = l.toFinset.card := (List.toFinset_card_of_nodup hnd').symm
    _ ≤ (Finset.Ioo a b).card := by
        apply Finset.card_le_card
        intro x hx
        exact hmem x (List.mem_toFinset.mp hx)
    _ = b - a - 1 := by rw [Nat.card_Ioo]

theorem filter_range_length_mono (g : ℕ → Bool) {a b : ℕ} (h : a ≤ b) :
    ((List.range a).filter g).length ≤ ((List.range b).filter g).length := by
  induction b, h using Nat.le_induction with
  | base => exact le_rfl
  | succ b hab ih =>
      rw [List.range_succ, List.filter_append]
      simp only [List.length_append]
      omega

/-- The `j`-th survivor of `range n` under a Boolean predicate sits at the
index counting the surviving positions below it. -/
theorem filter_range_get (g : ℕ → Bool) :
    ∀ n a, a < n → g a = true →
      ((List.range n).filter g).get? (((List.range a).filter g).length) = some a := by
  intro n
  induction n with
  | zero => intro a ha; omega
  | succ n ih =>
      intro a ha hg
      rw [List.range_succ, List.filter_append]
      by_cases han : a < n
      · rw [List.get?_append]
        · exact ih a han hg
        · have h2 : ((List.range (a + 1)).filter g).length =
              ((List.range a).filter g).length + 1 := by
            rw [List.range_succ, List.filter_append]
            simp [hg]
          have h1 := filter_range_length_mono g (show a + 1 ≤ n by omega)
          omega
      · have haeq : a = n := by omega
        subst haeq
        rw [List.get?_append_right le_rfl]
        simp [hg]

/-- The number of indexed positions below `a` agrees with the count of
removed entries of `range a`. -/
theorem badcount_eq_posBelow {pairs : List (ℕ × ℕ)}
    (hnd : (pairs.map (fun pv => pv.1)).Nodup) (a : ℕ) :
    ((List.range a).filter (fun i => pairs.any (fun pv => pv.1 == i))).length =
      posBelow pairs a := by
  unfold posBelow
  have hperm : List.Perm
      ((List.range a).filter (fun i => pairs.any (fun pv => pv.1 == i)))
      ((pairs.filter (fun pv => pv.1 < a)).map (fun pv => pv.1)) := by
    rw [List.perm_ext_iff_of_nodup]
    · intro i
      simp only [List.mem_filter, List.mem_range, List.any_eq_true, beq_iff_eq,
        List.mem_map]
      constructor
      · rintro ⟨hia, pv, hpv, rfl⟩
        exact ⟨pv, ⟨hpv, by simpa using hia⟩, rfl⟩
      · rintro ⟨pv, ⟨hpv, hlt⟩, rfl⟩
        exact ⟨by simpa using hlt, pv, hpv, rfl⟩
    · exact List.Nodup.filter _ (List.nodup_range a)
    · apply List.Nodup.sublist _ hnd
      exact List.Sublist.map _ (List.filter_sublist _)
  have := hperm.length_eq
  simpa using this

theorem filter_not_length (g : ℕ → Bool) (a : ℕ) :
    ((List.range a).filter g).length + ((List.range a).filter (fun i => !(g i))).length = a := by
  induction a with
  | zero => simp
  | succ a ih =>
      rw [List.range_succ, List.filter_append, List.filter_append]
      cases hg : g a <;> simp [hg] <;> omega

/-- Looking up the reduced shape at a surviving position's shifted index. -/
theorem reducedShape_get {sh : List ℕ} {pairs : List (ℕ × ℕ)}
    (hnd : (pairs.map (fun pv => pv.1)).Nodup) {a : ℕ} (ha : a < sh.length)
    (hfree : pairs.find? (fun pv => pv.1 == a) = none) :
    (reducedShape sh pairs).get? (a - posBelow pairs a) = some (sh.getD a 0) := by
  unfold reducedShape
  set g := fun i => !(pairs.any (fun pv => pv.1 == i)) with hgdef
  have hga : g a = true := by
    rw [hgdef]
    simp only [Bool.not_eq_true', List.any_eq_false]
    intro pv hpv
    have := List.find?_eq_none.mp hfree pv hpv
    simpa using this
  have hidx : ((List.range a).filter g).length = a - posBelow pairs a := by
    have hsum := filter_not_length g a
    have hbad : ((List.range a).filter (fun i => !(g i))).length = posBelow pairs a := by
      rw [← badcount_eq_posBelow hnd a]
      congr 1
      apply List.filter_congr
      intro i _
      rw [hgdef]
      simp
    omega
  rw [List.get?_map, ← hidx, filter_range_get g sh.length a ha hga]
  rfl

/-- Expanded assignments read back the fixed value at indexed positions and
the shifted reduced assignment elsewhere. -/
theorem expandAssign_getD {sh : List ℕ} {pairs : List (ℕ × ℕ)} {s' : List ℕ} {a : ℕ}
    (ha : a < sh.length) :
    (expandAssign sh pairs s').getD a 0 =
      (match pairs.find? (fun pv => pv.1 == a) with
       | some pv => pv.2
       | none => s'.getD (a - posBelow pairs a) 0) := by
  unfold expandAssign
  rw [List.getD_eq_getElem?_getD, List.getElem?_map, List.getElem?_range ha]
  rfl

theorem expandAssign_length (sh : List ℕ) (pairs : List (ℕ × ℕ)) (s' : List ℕ) :
    (expandAssign sh pairs s').length = sh.length := by
  unfold expandAssign
  simp

/-- Expansion of a valid reduced assignment is valid. -/
theorem expandAssign_valid {sh : List ℕ} {pairs : List (ℕ × ℕ)} {s' : List ℕ}
    (hok : IndexPairsOk sh pairs) (hs' : Valid (reducedShape sh pairs) s') :
    Valid sh (expandAssign sh pairs s') := by
  refine ⟨expandAssign_length sh pairs s', ?_⟩
  intro a ha
  rw [expandAssign_getD ha]
  cases hfind : pairs.find? (fun pv => pv.1 == a) with
  | some pv =>
      have hmem := List.mem_of_find?_eq_some hfind
      have hpa : pv.1 = a := by simpa using List.find?_some hfind
      have := (hok.2 pv hmem).2
      rw [hpa] at this
      simpa using this
  | none =>
      have hget := reducedShape_get hok.1 ha hfind
      have hlt : a - posBelow pairs a < (reducedShape sh pairs).length := by
        by_contra hge
        rw [List.get?_eq_none.mpr (by omega)] at hget
        cases hget
      have := hs'.2 (a - posBelow pairs a) hlt
      have hval : (reducedShape sh pairs).getD (a - posBelow pairs a) 0 = sh.getD a 0 := by
        rw [List.getD_eq_getElem?_getD, ← List.get?_eq_getElem?, hget]
        rfl
      simp only []
      omega

namespace weighted_node

theorem indexList_ok {pairs : List (ℕ × ℕ)} :
    ∀ l : List (Cpl × Node), (∀ p ∈ l, ∃ r, indexCore pairs p.2 = .ok r) →
      ∃ l', indexList pairs l = .ok l' ∧ l'.length = l.length ∧
        (∀ v w c, l.get? v = some (w, c) →
          ∃ rv, indexCore pairs c = .ok rv ∧ l'.get? v = some (w * rv.2, rv.1)) ∧
        (∀ p' ∈ l', ∃ p, p ∈ l ∧ ∃ rv, indexCore pairs p.2 = .ok rv ∧
          p' = (p.1 * rv.2, rv.1)) := by
  intro l
  induction l with
  | nil =>
      intro _
      refine ⟨[], by rw [indexList], rfl, ?_, ?_⟩
      · intro v w c h
        rw [List.get?_eq_none.mpr (by simp)] at h
        cases h
      · intro p' hp'
        cases hp'
  | cons p t ih =>
      intro hall
      obtain ⟨r, hr⟩ := hall p (by simp)
      obtain ⟨l', hl', hlen, hget, hmem⟩ := ih (fun q hq => hall q (by simp [hq]))
      obtain ⟨w, c⟩ := p
      refine ⟨(w * r.2, r.1) :: l', ?_, by simp [hlen], ?_, ?_⟩
      · rw [indexList]
        rw [hr, hl']
        rfl
      · intro v w' c' h
        cases v with
        | zero =>
            cases h
            exact ⟨r, hr, rfl⟩
        | succ v =>
            exact (hget v w' c' h).imp (fun rv hrv => ⟨hrv.1, hrv.2⟩)
      · intro p' hp'
        rcases List.mem_cons.mp hp' with rfl | hp'
        · exact ⟨(w, c), by simp, r, hr, rfl⟩
        · obtain ⟨q, hq, rv, hrv, hpe⟩ := hmem p' hp'
          exact ⟨q, by simp [hq], rv, hrv, hpe⟩

/-- The master theorem for `indexCore` on canonical nodes with well-formed
pairs: it succeeds, its result is canonical for the reduced shape, a zero
result weight forces the terminal, its result branches strictly below the
shifted image of any free bound the input branches strictly below, and its
weighted denotation at a reduced assignment is the input's at the expanded
assignment. -/
theorem indexCore_main {sh : List ℕ} {pairs : List (ℕ × ℕ)} (hok : IndexPairsOk sh pairs) :
    ∀ n, CanonicalN sh n →
      ∃ r : Node × Cpl, indexCore pairs n = .ok r ∧
        CanonicalN (reducedShape sh pairs) r.1 ∧
        (r.2 = 0 → r.1 = .terminal) ∧
        (∀ m, (∀ pv ∈ pairs, pv.1 ≠ m) → RootGt m n →
            RootGt (m - posBelow pairs m) r.1) ∧
        (∀ s', Valid (reducedShape sh pairs) s' →
          r.2 * evalN r.1 s' = evalN n (expandAssign sh pairs s')) := by
  intro n
  induction n using Node.rec_mem with
  | ht =>
      intro _
      refine ⟨(.terminal, 1), by rw [indexCore], canonicalN_terminal _,
        by simp, fun m _ _ => rootGt_terminal _, ?_⟩
      intro s' _
      simp
  | hn d succs ih =>
      intro hc
      obtain ⟨hd, hlen, hch, _⟩ := canonicalN_node_iff.mp hc
      cases hfind : pairs.find? (fun pv => pv.1 == d) with
      | some pv =>
          -- the branching axis is indexed: select the branch for the value
          have hpvm := List.mem_of_find?_eq_some hfind
          have hpa : pv.1 = d := by simpa using List.find?_some hfind
          have hvlt : pv.2 < succs.length := by
            rw [hlen, ← hpa]
            exact (hok.2 pv hpvm).2
          have hg : succs.get? pv.2 = some (succs.get ⟨pv.2, hvlt⟩) := List.get?_eq_get hvlt
          set q := succs.get ⟨pv.2, hvlt⟩ with hqdef
          obtain ⟨hcq, hrq, hzq⟩ := hch q (List.get?_mem hg)
          obtain ⟨rv, hrv, hrvcan, hrvz, hrvroot, hrveval⟩ := ih q (List.get?_mem hg) hcq
          refine ⟨(rv.1, q.1 * rv.2), ?_, hrvcan, ?_, ?_, ?_⟩
          · simp only [indexCore, hfind]
            split
            · rename_i w' c' h'
              rw [h'] at hg
              have hq := Option.some.inj hg
              rw [← hq] at hrv ⊢
              rw [hrv]
              rfl
            · rename_i h'
              rw [h'] at hg
              cases hg
          · intro h0
            rcases mul_eq_zero.mp h0 with h | h
            · rw [hzq h] at hrv
              rw [indexCore] at hrv
              cases hrv
              rfl
            · exact hrvz h
          · intro m hmfree hmroot
            have hmd : m < d := rootGt_node.mp hmroot
            exact hrvroot m hmfree (rootGt_mono hrq (by omega))
          · intro s' hs'
            have hexp : (expandAssign sh pairs s').getD d 0 = pv.2 := by
              rw [expandAssign_getD hd, hfind]
            have hge : succs.get? ((expandAssign sh pairs s').getD d 0) = some q := by
              rw [hexp]
              exact hg
            rw [evalN_node_some hge]
            have := hrveval s' hs'
            calc (q.1 * rv.2) * evalN rv.1 s' = q.1 * (rv.2 * evalN rv.1 s') := by ring
              _ = q.1 * evalN q.2 (expandAssign sh pairs s') := by rw [this]
      | none =>
          -- free axis: rebuild the node with shifted depth
          have hfree : ∀ pv ∈ pairs, pv.1 ≠ d := by
            intro pv hpv
            have := List.find?_eq_none.mp hfind pv hpv
            simpa using this
          have hallok : ∀ p ∈ succs, ∃ r, indexCore pairs p.2 = .ok r := by
            intro p hp
            obtain ⟨r, hr, _⟩ := ih p hp (hch p hp).1
            exact ⟨r, hr⟩
          obtain ⟨l', hl', hllen, hlget, hlmem⟩ := indexList_ok succs hallok
          have hshget : (reducedShape sh pairs).get? (d - posBelow pairs d) =
              some (sh.getD d 0) := reducedShape_get hok.1 hd hfind
          have hshlt : d - posBelow pairs d < (reducedShape sh pairs).length := by
            by_contra hge
            rw [List.get?_eq_none.mpr (by omega)] at hshget
            cases hshget
          have hshval : (reducedShape sh pairs).getD (d - posBelow pairs d) 0 =
              sh.getD d 0 := by
            rw [List.getD_eq_getElem?_getD, ← List.get?_eq_getElem?, hshget]
            rfl
          have hmapch : ∀ p ∈ l', CanonicalN (reducedShape sh pairs) p.2 ∧
              RootGt (d - posBelow pairs d) p.2 := by
            intro p' hp'
            obtain ⟨p, hp, rv, hrv, rfl⟩ := hlmem p' hp'
            obtain ⟨rv', hrv', hcan', _, hroot', _⟩ := ih p hp (hch p hp).1
            rw [hrv] at hrv'
            cases hrv'
            exact ⟨hcan', hroot' d hfree (hch p hp).2.1⟩
          have hnorm := normalize_canonical hshlt
            (by rw [hllen, hlen, hshval]) hmapch
          refine ⟨normalize (d - posBelow pairs d) l', ?_, hnorm.1, hnorm.2.1, ?_, ?_⟩
          · simp only [indexCore, hfind, hl']
            rfl
          · intro m hmfree hmroot
            have hmd : m < d := rootGt_node.mp hmroot
            apply hnorm.2.2
            -- m - cnt m < d - cnt d using the interval bound
            have hsplit := posBelow_split pairs (show m ≤ d by omega)
            have hint := interval_count hok.1 (show m < d by omega) hmfree
            have hle := posBelow_le hok.1 m
            omega
          · intro s' hs'
            have hexp : (expandAssign sh pairs s').getD d 0 =
                s'.getD (d - posBelow pairs d) 0 := by
              rw [expandAssign_getD hd, hfind]
            have hvlt' : s'.getD (d - posBelow pairs d) 0 < sh.getD d 0 := by
              have := hs'.2 (d - posBelow pairs d) hshlt
              rw [hshval] at this
              exact this
            have hvlen : s'.getD (d - posBelow pairs d) 0 < succs.length := by
              rw [hlen]
              exact hvlt'
            have hmb : s'.getD (d - posBelow pairs d) 0 < l'.length := by
              rw [hllen]
              exact hvlen
            rw [normalize_eval _ _ s' hmb]
            have hg : succs.get? (s'.getD (d - posBelow pairs d) 0) =
                some (succs.get ⟨_, hvlen⟩) := List.get?_eq_get hvlen
            set q := succs.get ⟨s'.getD (d - posBelow pairs d) 0, hvlen⟩ with hqdef
            obtain ⟨rv, hrv, hlget'⟩ := hlget _ q.1 q.2 (by rw [hg])
            have hge : l'.get? (s'.getD (d - posBelow pairs d) 0) =
                some (q.1 * rv.2, rv.1) := hlget'
            rw [evalN_node_some hge]
            have hgef : succs.get? ((expandAssign sh pairs s').getD d 0) = some q := by
              rw [hexp]
              exact hg
            rw [evalN_node_some hgef]
            obtain ⟨rv', hrv', _, _, _, hrveval⟩ := ih q (List.get?_mem hg) (hch q (List.get?_mem hg)).1
            rw [hrv] at hrv'
            cases hrv'
            have := hrveval s' hs'
            calc (q.1 * rv.2) * evalN rv.1 s' = q.1 * (rv.2 * evalN rv.1 s') := by ring
              _ = q.1 * evalN q.2 (expandAssign sh pairs s') := by rw [this]

end weighted_node

/-! ## Permutation bookkeeping: `order_inverse` and `pyArgsort` -/

theorem getD_map_range (f : ℕ → ℕ) {n a : ℕ} (h : a < n) :
    ((List.range n).map f).getD a 0 = f a := by
  rw [List.getD_eq_getElem?_getD, List.getElem?_map, List.getElem?_range h]
  rfl

theorem map_getD_range (l : List ℕ) :
    (List.range l.length).map (fun a => l.getD a 0) = l := by
  apply List.ext_getElem (by simp)
  intro a h1 h2
  simp only [List.getElem_map, List.getElem_range]
  rw [List.getD_eq_getElem?_getD, List.getElem?_eq_getElem h2]
  rfl

theorem perm_range_length {io : List ℕ} {n : ℕ} (h : io.Perm (List.range n)) :
    io.length = n := by
  simpa using h.length_eq

theorem perm_range_nodup {io : List ℕ} {n : ℕ} (h : io.Perm (List.range n)) :
    io.Nodup := (List.nodup_range n).perm h.symm

theorem perm_range_mem {io : List ℕ} {n : ℕ} (h : io.Perm (List.range n)) {a : ℕ} :
    a ∈ io ↔ a < n := by
  rw [h.mem_iff, List.mem_range]

theorem order_inverse_length (io : List ℕ) :
    (order_inverse io).length = io.length := by
  simp [order_inverse]

theorem order_inverse_getD {io : List ℕ} {a : ℕ} (h : a < io.length) :
    (order_inverse io).getD a 0 = io.indexOf a := by
  rw [order_inverse, getD_map_range _ h]

theorem getD_indexOf {io : List ℕ} {a : ℕ} (ha : a ∈ io) :
    io.getD (io.indexOf a) 0 = a := by
  rw [List.getD_eq_getElem?_getD,
    List.getElem?_eq_getElem (List.indexOf_lt_length.mpr ha)]
  simp [List.getElem_indexOf]

theorem indexOf_getD {io : List ℕ} (hnd : io.Nodup) {d : ℕ} (hd : d < io.length) :
    io.indexOf (io.getD d 0) = d := by
  have hmem : io.getD d 0 ∈ io := by
    rw [List.getD_eq_getElem?_getD, List.getElem?_eq_getElem hd]
    exact List.getElem_mem hd
  have hlt := List.indexOf_lt_length.mpr hmem
  have : io[io.indexOf (io.getD d 0)] = io[d] := by
    rw [List.getElem_indexOf hlt, List.getD_eq_getElem?_getD, List.getElem?_eq_getElem hd]
    rfl
  exact (List.Nodup.getElem_inj_iff hnd).mp this

/-- `io[io⁻¹[a]] = a` for a permutation `io` of `range n` and `a < n`. -/
theorem io_oi {io : List ℕ} {n : ℕ} (h : io.Perm (List.range n)) {a : ℕ} (ha : a < n) :
    io.getD ((order_inverse io).getD a 0) 0 = a := by
  have hmem : a ∈ io := (perm_range_mem h).mpr ha
  rw [order_inverse_getD (by rw [perm_range_length h]; exact ha)]
  exact getD_indexOf hmem

/-- `io⁻¹[io[d]] = d` for a permutation `io` of `range n` and `d < n`. -/
theorem oi_io {io : List ℕ} {n : ℕ} (h : io.Perm (List.range n)) {d : ℕ} (hd : d < n) :
    (order_inverse io).getD (io.getD d 0) 0 = d := by
  have hlen := perm_range_length h
  have hdlen : d < io.length := by omega
  have hmem : io.getD d 0 ∈ io := by
    rw [List.getD_eq_getElem?_getD, List.getElem?_eq_getElem hdlen]
    exact List.getElem_mem hdlen
  have hlt : io.getD d 0 < n := (perm_range_mem h).mp hmem
  rw [order_inverse_getD (by omega)]
  exact indexOf_getD (perm_range_nodup h) hdlen

theorem order_inverse_mem {io : List ℕ} {n : ℕ} (h : io.Perm (List.range n)) {d : ℕ} :
    d ∈ order_inverse io ↔ d < n := by
  have hlen := perm_range_length h
  constructor
  · intro hd
    obtain ⟨a, ha, rfl⟩ := List.mem_map.mp hd
    rw [List.mem_range] at ha
    have hmemio : a ∈ io := (perm_range_mem h).mpr (by omega)
    have := List.indexOf_lt_length.mpr hmemio
    omega
  · intro hd
    have hdlen : d < io.length := by omega
    have : (order_inverse io).getD (io.getD d 0) 0 = d := oi_io h hd
    have hmem : io.getD d 0 ∈ io := by
      rw [List.getD_eq_getElem?_getD, List.getElem?_eq_getElem hdlen]
      exact List.getElem_mem hdlen
    have hlt : io.getD d 0 < n := (perm_range_mem h).mp hmem
    have hoi : io.getD d 0 < (order_inverse io).length := by
      rw [order_inverse_length]; omega
    rw [List.getD_eq_getElem?_getD, List.getElem?_eq_getElem hoi] at this
    rw [← this]
    exact List.getElem_mem hoi

theorem order_inverse_perm {io : List ℕ} {n : ℕ} (h : io.Perm (List.range n)) :
    (order_inverse io).Perm (List.range n) := by
  have hnd : (order_inverse io).Nodup := by
    rw [order_inverse]
    apply List.Nodup.map_on
    · intro a ha b hb hab
      rw [List.mem_range] at ha hb
      have h1 := getD_indexOf ((perm_range_mem h).mpr (by rwa [perm_range_length h] at ha))
      have h2 := getD_indexOf ((perm_range_mem h).mpr (by rwa [perm_range_length h] at hb))
      rw [hab] at h1
      rw [h1] at h2
      exact h2
    · exact List.nodup_range _
  rw [List.perm_ext_iff_of_nodup hnd (List.nodup_range n)]
  intro d
  rw [order_inverse_mem h, List.mem_range]

theorem pyArgsort_perm (key : List ℕ) :
    (pyArgsort key).Perm (List.range key.length) :=
  List.mergeSort_perm _ _

theorem pyArgsort_pairwise (key : List ℕ) :
    (pyArgsort key).Pairwise (fun a b => key.getD a 0 ≤ key.getD b 0) := by
  have h := @List.sorted_mergeSort ℕ
    (fun a b => decide (key.getD a 0 ≤ key.getD b 0))
    (fun a b c hab hbc => by
      simp only [decide_eq_true_eq] at *
      omega)
    (fun a b => by
      simp only [Bool.or_eq_true, decide_eq_true_eq]
      omega)
    (List.range key.length)
  refine h.imp ?_
  intro a b hab
  simpa using hab

/-- Among pairwise-distinct keys an argsort is unique: any two permutations of
`range key.length` along which the keys read sorted are equal. -/
theorem argsort_unique {key : List ℕ} (hnd : key.Nodup) {L1 L2 : List ℕ}
    (h1p : L1.Perm (List.range key.length)) (h2p : L2.Perm (List.range key.length))
    (h1s : (L1.map (fun a => key.getD a 0)).Pairwise (· ≤ ·))
    (h2s : (L2.map (fun a => key.getD a 0)).Pairwise (· ≤ ·)) :
    L1 = L2 := by
  have hmapeq : L1.map (fun a => key.getD a 0) = L2.map (fun a => key.getD a 0) := by
    exact List.eq_of_perm_of_sorted
      ((h1p.map (fun a => key.getD a 0)).trans (h2p.map (fun a => key.getD a 0)).symm) h1s h2s
  have hlen : L1.length = L2.length := by
    rw [perm_range_length h1p, perm_range_length h2p]
  apply List.ext_getElem hlen
  intro a h1 h2
  have hm1 : L1[a] ∈ L1 := List.getElem_mem h1
  have hm2 : L2[a] ∈ L2 := List.getElem_mem h2
  have hb1 : L1[a] < key.length := by
    have := (perm_range_mem h1p).mp hm1
    omega
  have hb2 : L2[a] < key.length := by
    have := (perm_range_mem h2p).mp hm2
    omega
  have hga : (L1.map (fun a => key.getD a 0))[a]? = (L2.map (fun a => key.getD a 0))[a]? := by
    rw [hmapeq]
  rw [List.getElem?_map, List.getElem?_map, List.getElem?_eq_getElem h1,
    List.getElem?_eq_getElem h2] at hga
  simp only [Option.map_some'] at hga
  have hga2 : key.getD L1[a] 0 = key.getD L2[a] 0 := Option.some.inj hga
  rw [List.getD_eq_getElem?_getD, List.getElem?_eq_getElem hb1,
    List.getD_eq_getElem?_getD, List.getElem?_eq_getElem hb2] at hga2
  simp only [Option.getD_some] at hga2
  exact (List.Nodup.getElem_inj_iff hnd).mp hga2

/-- Computation rule for `pyArgsort` on pairwise-distinct keys: any sorted
permutation of the positions is the argsort. -/
theorem pyArgsort_eq {key : List ℕ} (hnd : key.Nodup) {L : List ℕ}
    (hp : L.Perm (List.range key.length))
    (hs : (L.map (fun a => key.getD a 0)).Pairwise (· ≤ ·)) :
    pyArgsort key = L :=
  argsort_unique hnd (pyArgsort_perm key) hp
    (List.Pairwise.map _ (fun a b hab => hab) (pyArgsort_pairwise key)) hs

/-- On a permutation of `range n` the source's argsort computes exactly the
inverse permutation. -/
theorem pyArgsort_eq_order_inverse {io : List ℕ} {n : ℕ} (h : io.Perm (List.range n)) :
    pyArgsort io = order_inverse io := by
  have hlen := perm_range_length h
  apply pyArgsort_eq (perm_range_nodup h)
  · rw [hlen]
    exact order_inverse_perm h
  · have : (order_inverse io).map (fun a => io.getD a 0) = List.range n := by
      apply List.ext_getElem (by simp [order_inverse_length, hlen])
      intro a h1 h2
      simp only [List.getElem_map, List.getElem_range]
      have ha : a < n := by simpa using h2
      have hb : a < (order_inverse io).length := by simpa using h1
      have := io_oi h ha
      rw [List.getD_eq_getElem?_getD (order_inverse io), List.getElem?_eq_getElem hb,
        Option.getD_some] at this
      exact this
    rw [this]
    exact (List.pairwise_lt_range n).imp le_of_lt

/-! ## Construction: evaluation and canonicity of `as_tensor` -/

/-- The storage shape of a facade value: storage depth `d` has the width of
data axis `index_order[d]`. -/
def storageShape (ds io : List ℕ) : List ℕ := io.map (fun a => ds.getD a 0)

theorem storageShape_length (ds io : List ℕ) :
    (storageShape ds io).length = io.length := by simp [storageShape]

theorem storageShape_getD {ds io : List ℕ} {d : ℕ} (hd : d < io.length) :
    (storageShape ds io).getD d 0 = ds.getD (io.getD d 0) 0 := by
  rw [storageShape, List.getD_eq_getElem?_getD, List.getElem?_map,
    List.getElem?_eq_getElem hd]
  simp [List.getD_eq_getElem?_getD, List.getElem?_eq_getElem hd]

theorem storageIdx_getD {io x : List ℕ} {d : ℕ} (hd : d < io.length) :
    (TDDm.storageIdx io x).getD d 0 = x.getD (io.getD d 0) 0 := by
  rw [TDDm.storageIdx, List.getD_eq_getElem?_getD, List.getElem?_map,
    List.getElem?_eq_getElem hd]
  simp [List.getD_eq_getElem?_getD, List.getElem?_eq_getElem hd]

theorem storageIdx_valid {ds io x : List ℕ} (hio : ∀ e ∈ io, e < ds.length)
    (hv : Valid ds x) : Valid (storageShape ds io) (TDDm.storageIdx io x) := by
  refine ⟨by simp [storageShape, TDDm.storageIdx], ?_⟩
  intro d hd
  rw [storageShape_length] at hd
  rw [storageIdx_getD hd, storageShape_getD hd]
  apply hv.2
  apply hio
  rw [List.getD_eq_getElem?_getD, List.getElem?_eq_getElem hd]
  exact List.getElem_mem hd

namespace TDDm

/-- The bookkeeping invariant of the facade (spec section 3, invariant 4):
`index_order` is a permutation of `range(len(data_shape))`. -/
def WellFormed (t : TDDm) : Prop :=
  t.index_order.Perm (List.range t.data_shape.length)

instance (t : TDDm) : Decidable t.WellFormed := by unfold WellFormed; infer_instance

/-- A facade value whose node is canonical for its storage shape, with the
all-zero diagram in its unique `(0, terminal)` form. -/
def Canonical (t : TDDm) : Prop :=
  CanonicalN (storageShape t.data_shape t.index_order) t.node ∧
  (t.weights = 0 → t.node = .terminal)

/-- The successive writes performed by the recursion of `__as_tensor_iterate`:
from `depth` up to `stop`, position `io[d]` of `base` receives `s[d]`. -/
def bake (io s : List ℕ) (stop : ℕ) (base : List ℕ) (depth : ℕ) : List ℕ :=
  if stop ≤ depth then base
  else bake io s stop (base.set (io.getD depth 0) (s.getD depth 0)) (depth + 1)
termination_by stop - depth
decreasing_by omega

theorem bake_length (io s : List ℕ) (stop : ℕ) :
    ∀ fuel depth base, stop - depth ≤ fuel →
      (bake io s stop base depth).length = base.length := by
  intro fuel
  induction fuel with
  | zero =>
      intro depth base h
      rw [bake, if_pos (by omega)]
  | succ m ih =>
      intro depth base h
      rw [bake]
      split
      · rfl
      · rw [ih (depth + 1) _ (by omega), List.length_set]

theorem as_tensor_iterate_eval {T : List ℕ → Cpl} {ds io : List ℕ}
    (hlen : io.length = ds.length) :
    ∀ fuel depth base s, ds.length - depth ≤ fuel →
      Valid (storageShape ds io) s →
      (as_tensor_iterate T base ds io depth).2 *
        evalN (as_tensor_iterate T base ds io depth).1 s
        = T (bake io s ds.length base depth) := by
  intro fuel
  induction fuel with
  | zero =>
      intro depth base s hf hv
      have hle : ds.length ≤ depth := by omega
      rw [as_tensor_iterate, dif_pos hle, bake, if_pos hle, evalN_terminal, mul_one]
  | succ m ih =>
      intro depth base s hf hv
      by_cases hle : ds.length ≤ depth
      · rw [as_tensor_iterate, dif_pos hle, bake, if_pos hle, evalN_terminal, mul_one]
      · have hdepth : depth < io.length := by omega
        rw [as_tensor_iterate, dif_neg hle, bake, if_neg hle]
        simp only [List.map_map]
        set k := s.getD depth 0 with hk
        set L := (List.range (ds.getD (io.getD depth 0) 0)).map
          ((fun r => (r.2, r.1)) ∘ fun kk =>
            as_tensor_iterate T (base.set (io.getD depth 0) kk) ds io (depth + 1))
          with hL
        have hkw : k < ds.getD (io.getD depth 0) 0 := by
          have := hv.2 depth (by rw [storageShape_length]; omega)
          rwa [storageShape_getD hdepth] at this
        have hvlt : k < L.length := by
          rw [hL, List.length_map, List.length_range]
          exact hkw
        rw [weighted_node.normalize_eval _ _ _ hvlt]
        have hget : L.get? k = some
            ((as_tensor_iterate T (base.set (io.getD depth 0) k) ds io (depth + 1)).2,
             (as_tensor_iterate T (base.set (io.getD depth 0) k) ds io (depth + 1)).1) := by
          rw [hL, List.get?_eq_getElem?, List.getElem?_map, List.getElem?_range hkw]
          rfl
        rw [evalN_node_some hget]
        exact ih (depth + 1) (base.set (io.getD depth 0) k) s (by omega) hv

theorem bake_storage_getD {io x : List ℕ} {n : ℕ} (hn : io.length = n)
    (hio : ∀ e ∈ io, e < n) :
    ∀ fuel depth base, n - depth ≤ fuel → base.length = n → ∀ a,
      (bake io (storageIdx io x) n base depth).getD a 0
        = if a ∈ io.drop depth then x.getD a 0 else base.getD a 0 := by
  intro fuel
  induction fuel with
  | zero =>
      intro depth base hf hb a
      have hle : n ≤ depth := by omega
      rw [bake, if_pos hle, List.drop_eq_nil_of_le (by omega)]
      simp
  | succ m ih =>
      intro depth base hf hb a
      by_cases hle : n ≤ depth
      · rw [bake, if_pos hle, List.drop_eq_nil_of_le (by omega)]
        simp
      · have hdepth : depth < io.length := by omega
        rw [bake, if_neg hle]
        have hdrop : io.drop depth = io.getD depth 0 :: io.drop (depth + 1) := by
          rw [List.drop_eq_getElem_cons hdepth]
          congr 1
          rw [List.getD_eq_getElem?_getD, List.getElem?_eq_getElem hdepth]
          rfl
        have he : io.getD depth 0 ∈ io := by
          rw [List.getD_eq_getElem?_getD, List.getElem?_eq_getElem hdepth]
          exact List.getElem_mem hdepth
        have helt : io.getD depth 0 < n := hio _ he
        rw [ih (depth + 1) _ (by omega) (by rw [List.length_set]; exact hb)]
        have hmemiff : a ∈ io.drop depth ↔ a = io.getD depth 0 ∨ a ∈ io.drop (depth + 1) := by
          rw [hdrop, List.mem_cons]
        rw [storageIdx_getD hdepth]
        by_cases hmem : a ∈ io.drop (depth + 1)
        · rw [if_pos hmem, if_pos (hmemiff.mpr (Or.inr hmem))]
        · by_cases hae : a = io.getD depth 0
          · rw [if_neg hmem, if_pos (hmemiff.mpr (Or.inl hae)), hae,
              getD_set_self _ (by omega)]
          · rw [if_neg hmem, if_neg (by rw [hmemiff]; tauto), getD_set_ne _ hae]

theorem bake_storageIdx {ds io x : List ℕ} (hp : io.Perm (List.range ds.length))
    (hx : x.length = ds.length) :
    bake io (storageIdx io x) ds.length (List.replicate ds.length 0) 0 = x := by
  have hlen := perm_range_length hp
  have hio : ∀ e ∈ io, e < ds.length := fun e he => (perm_range_mem hp).mp he
  have hblen : (bake io (storageIdx io x) ds.length (List.replicate ds.length 0) 0).length
      = ds.length := by
    rw [bake_length _ _ _ (ds.length) 0 _ (by omega), List.length_replicate]
  apply List.ext_getElem (by omega)
  intro a h1 h2
  have ha : a < ds.length := by omega
  have := bake_storage_getD (x := x) hlen hio ds.length 0 (List.replicate ds.length 0)
    (by omega) (by simp) a
  rw [List.drop_zero, if_pos ((perm_range_mem hp).mpr ha)] at this
  rw [List.getD_eq_getElem?_getD, List.getElem?_eq_getElem h1] at this
  rw [List.getD_eq_getElem?_getD, List.getElem?_eq_getElem h2] at this
  simpa using this

/-- The order actually used by `as_tensor`: an empty supplied order defaults
to the trivial one. -/
def resultOrder (ds io : List ℕ) : List ℕ :=
  if io = [] then List.range ds.length else io

theorem as_tensor_ok_eq {T : List ℕ → Cpl} {ds io rio : List ℕ}
    (hr : rio = if io = [] then List.range ds.length else io)
    (h : rio.length = ds.length) :
    as_tensor T ds io = .ok
      ⟨(as_tensor_iterate T (List.replicate ds.length 0) ds rio 0).2, ds,
       (as_tensor_iterate T (List.replicate ds.length 0) ds rio 0).1,
       rio⟩ := by
  simp only [as_tensor, ← hr]
  rw [if_neg (by omega)]

theorem as_tensor_error_iff {T : List ℕ → Cpl} {ds io : List ℕ} :
    (∃ e, as_tensor T ds io = .error e) ↔ io ≠ [] ∧ io.length ≠ ds.length := by
  simp only [as_tensor]
  by_cases hio : io = []
  · subst hio
    have h1 : (if ([] : List ℕ) = [] then List.range ds.length else ([] : List ℕ))
        = List.range ds.length := if_pos rfl
    rw [h1, List.length_range, if_neg (by omega)]
    simp
  · rw [if_neg hio]
    by_cases hlen : ds.length = io.length
    · rw [if_neg (by omega)]
      constructor
      · rintro ⟨e, he⟩
        exact Except.noConfusion he
      · rintro ⟨_, hne⟩
        omega
    · rw [if_pos (by omega)]
      constructor
      · intro _
        exact ⟨hio, by omega⟩
      · intro _
        exact ⟨.ShapeOrderMismatch, rfl⟩

theorem resultOrder_perm {ds io : List ℕ} (hp : io ≠ [] → io.Perm (List.range ds.length)) :
    (resultOrder ds io).Perm (List.range ds.length) := by
  rw [resultOrder]
  by_cases hio : io = []
  · rw [if_pos hio]
  · rw [if_neg hio]
    exact hp hio

/-- Denotational round trip of construction: the diagram built by `as_tensor`
denotes exactly the input tensor on every valid index. -/
theorem as_tensor_denote {T : List ℕ → Cpl} {ds io : List ℕ} {t : TDDm}
    (hp : io ≠ [] → io.Perm (List.range ds.length))
    (h : as_tensor T ds io = .ok t) :
    ∀ x, Valid ds x → t.denote x = T x := by
  have hperm := @resultOrder_perm ds io hp
  have hlen := perm_range_length hperm
  rw [as_tensor_ok_eq (rfl : resultOrder ds io = _) (by omega)] at h
  obtain rfl := (Except.ok.injEq _ _).mp h.symm
  intro x hv
  rw [denote]
  simp only
  rw [as_tensor_iterate_eval hlen (ds.length - 0) 0 _ _ (by omega)
    (storageIdx_valid (fun e he => (perm_range_mem hperm).mp he) hv)]
  rw [bake_storageIdx hperm hv.1]

theorem as_tensor_iterate_canonical {T : List ℕ → Cpl} {ds io : List ℕ}
    (hlen : io.length = ds.length) :
    ∀ fuel depth base, ds.length - depth ≤ fuel →
      CanonicalN (storageShape ds io) (as_tensor_iterate T base ds io depth).1 ∧
      ((as_tensor_iterate T base ds io depth).2 = 0 →
        (as_tensor_iterate T base ds io depth).1 = .terminal) ∧
      ∀ k, k < depth → RootGt k (as_tensor_iterate T base ds io depth).1 := by
  intro fuel
  induction fuel with
  | zero =>
      intro depth base hf
      have hle : ds.length ≤ depth := by omega
      rw [as_tensor_iterate, dif_pos hle]
      exact ⟨canonicalN_terminal _, fun _ => rfl, fun k _ => rootGt_terminal _⟩
  | succ m ih =>
      intro depth base hf
      by_cases hle : ds.length ≤ depth
      · rw [as_tensor_iterate, dif_pos hle]
        exact ⟨canonicalN_terminal _, fun _ => rfl, fun k _ => rootGt_terminal _⟩
      · have hdepth : depth < io.length := by omega
        rw [as_tensor_iterate, dif_neg hle]
        simp only [List.map_map]
        have h := @weighted_node.normalize_canonical (storageShape ds io) depth
          ((List.range (ds.getD (io.getD depth 0) 0)).map
            ((fun r => (r.2, r.1)) ∘ fun kk =>
              as_tensor_iterate T (base.set (io.getD depth 0) kk) ds io (depth + 1)))
          (by rw [storageShape_length]; omega)
          (by rw [List.length_map, List.length_range, storageShape_getD hdepth])
          ?_
        · exact ⟨h.1, h.2.1, fun k hk => h.2.2 k hk⟩
        · intro p hp
          obtain ⟨kk, _, rfl⟩ := List.mem_map.mp hp
          obtain ⟨hc, _, hroot⟩ := ih (depth + 1) (base.set (io.getD depth 0) kk) (by omega)
          exact ⟨hc, hroot depth (by omega)⟩

/-- Construction yields canonical, well-formed facade values. -/
theorem as_tensor_canonical {T : List ℕ → Cpl} {ds io : List ℕ} {t : TDDm}
    (hp : io ≠ [] → io.Perm (List.range ds.length))
    (h : as_tensor T ds io = .ok t) :
    t.Canonical ∧ t.WellFormed ∧ t.data_shape = ds ∧ t.index_order = resultOrder ds io := by
  have hperm := @resultOrder_perm ds io hp
  have hlen := perm_range_length hperm
  rw [as_tensor_ok_eq (rfl : resultOrder ds io = _) (by omega)] at h
  obtain rfl := (Except.ok.injEq _ _).mp h.symm
  obtain ⟨hc, hz, _⟩ := @as_tensor_iterate_canonical T ds (resultOrder ds io)
    hlen (ds.length - 0) 0
    (List.replicate ds.length 0) (by omega)
  exact ⟨⟨hc, hz⟩, hperm, rfl, rfl⟩

end TDDm

/-! ## Storage-side and logical-side assignments -/

theorem storageShape_pos {ds io : List ℕ} (hp : io.Perm (List.range ds.length))
    (hpos : PosShape ds) : PosShape (storageShape ds io) := by
  intro d hd
  rw [storageShape_length] at hd
  rw [storageShape_getD hd]
  apply hpos
  apply (perm_range_mem hp).mp
  rw [List.getD_eq_getElem?_getD, List.getElem?_eq_getElem hd]
  exact List.getElem_mem hd

theorem storage_surj {ds io s : List ℕ} (hp : io.Perm (List.range ds.length))
    (hs : Valid (storageShape ds io) s) :
    ∃ x, Valid ds x ∧ TDDm.storageIdx io x = s := by
  have hlen := perm_range_length hp
  have hinvp := order_inverse_perm hp
  have hinvlen := perm_range_length hinvp
  refine ⟨TDDm.storageIdx (order_inverse io) s, ⟨?_, ?_⟩, ?_⟩
  · simp [TDDm.storageIdx]
    omega
  · intro a ha
    have hainv : a < (order_inverse io).length := by omega
    rw [storageIdx_getD hainv]
    have hinvmem : (order_inverse io).getD a 0 < io.length := by
      have : (order_inverse io).getD a 0 ∈ order_inverse io := by
        rw [List.getD_eq_getElem?_getD, List.getElem?_eq_getElem hainv]
        exact List.getElem_mem hainv
      have := (perm_range_mem hinvp).mp this
      omega
    have := hs.2 ((order_inverse io).getD a 0) (by rw [storageShape_length]; omega)
    rw [storageShape_getD hinvmem, io_oi hp ha] at this
    exact this
  · have hslen : s.length = io.length := by
      have := hs.1
      rwa [storageShape_length] at this
    apply List.ext_getElem (by simp [TDDm.storageIdx]; omega)
    intro d h1 h2
    have hd : d < io.length := by simpa [TDDm.storageIdx] using h1
    have hgd : (TDDm.storageIdx io (TDDm.storageIdx (order_inverse io) s)).getD d 0
        = s.getD d 0 := by
      rw [storageIdx_getD hd]
      have hiod : io.getD d 0 < (order_inverse io).length := by
        rw [order_inverse_length]
        have hmem : io.getD d 0 < ds.length := by
          apply (perm_range_mem hp).mp
          rw [List.getD_eq_getElem?_getD, List.getElem?_eq_getElem hd]
          exact List.getElem_mem hd
        omega
      rw [storageIdx_getD hiod, oi_io hp (by omega)]
    rw [List.getD_eq_getElem?_getD, List.getElem?_eq_getElem h1,
      List.getD_eq_getElem?_getD, List.getElem?_eq_getElem h2] at hgd
    simpa using hgd

/-- Canonical facade values with the same bookkeeping denote equal tensors
exactly when their nodes and dangling weights agree (spec invariant 2,
restricted to a common `index_order`). -/
theorem TDDm.denote_inj {t1 t2 : TDDm}
    (hds : t2.data_shape = t1.data_shape) (hio : t2.index_order = t1.index_order)
    (hwf : t1.WellFormed) (hpos : PosShape t1.data_shape)
    (hc1 : t1.Canonical) (hc2 : t2.Canonical) :
    (∀ x, Valid t1.data_shape x → t1.denote x = t2.denote x) ↔
      (t1.node = t2.node ∧ t1.weights = t2.weights) := by
  constructor
  · intro heq
    have hc2' : CanonicalN (storageShape t1.data_shape t1.index_order) t2.node := by
      have := hc2.1
      rwa [hds, hio] at this
    refine canonicalW_inj (storageShape_pos hwf hpos) hc1.1 hc2' hc1.2 hc2.2 ?_
    intro s hs
    obtain ⟨x, hx, rfl⟩ := storage_surj hwf hs
    have := heq x hx
    rw [TDDm.denote, TDDm.denote, hio] at this
    exact this
  · rintro ⟨hn, hw⟩ x _
    rw [TDDm.denote, TDDm.denote, hio, hn, hw]

/-! ## The facade `index`: error classification and success -/

theorem except_bind_ok {α β ε : Type} (a : α) (f : α → Except ε β) :
    (Except.ok a : Except ε α).bind f = f a := rfl

theorem except_bind_error {α β ε : Type} (e : ε) (f : α → Except ε β) :
    (Except.error e : Except ε α).bind f = .error e := rfl

theorem except_map_ok {α β ε : Type} (f : α → β) (a : α) :
    Except.map f (.ok a : Except ε α) = .ok (f a) := rfl

theorem except_map_error {α β ε : Type} (f : α → β) (e : ε) :
    Except.map f (.error e : Except ε α) = .error e := rfl

namespace weighted_node

theorem indexList_nil (pairs : List (ℕ × ℕ)) : indexList pairs [] = .ok [] := by
  rw [indexList]

theorem indexList_cons (pairs : List (ℕ × ℕ)) (w : Cpl) (c : Node)
    (t : List (Cpl × Node)) :
    indexList pairs ((w, c) :: t) = (indexCore pairs c).bind (fun r =>
      (indexList pairs t).bind (fun rest => .ok ((w * r.2, r.1) :: rest))) := by
  rw [indexList]
  rfl

theorem indexCore_terminal (pairs : List (ℕ × ℕ)) :
    indexCore pairs .terminal = .ok (.terminal, 1) := by
  rw [indexCore]

theorem indexCore_node_hit {pairs : List (ℕ × ℕ)} {d : ℕ} {succs : List (Cpl × Node)}
    {pv : ℕ × ℕ} {w : Cpl} {c : Node}
    (hfind : pairs.find? (fun pv => pv.1 == d) = some pv)
    (hg : succs.get? pv.2 = some (w, c)) :
    indexCore pairs (.node d succs) = (indexCore pairs c).map (fun r => (r.1, w * r.2)) := by
  simp only [indexCore, hfind]
  split
  · rename_i w' c' h'
    rw [h'] at hg
    have := Option.some.inj hg
    injection this with h1 h2
    rw [h1, h2]
  · rename_i h'
    rw [h'] at hg
    exact Option.noConfusion hg

theorem indexCore_node_hit_oob {pairs : List (ℕ × ℕ)} {d : ℕ} {succs : List (Cpl × Node)}
    {pv : ℕ × ℕ}
    (hfind : pairs.find? (fun pv => pv.1 == d) = some pv)
    (hg : succs.get? pv.2 = none) :
    indexCore pairs (.node d succs) = .error .InvalidBranchValue := by
  simp only [indexCore, hfind]
  split
  · rename_i w' c' h'
    rw [h'] at hg
    exact Option.noConfusion hg
  · rfl

theorem indexCore_node_miss {pairs : List (ℕ × ℕ)} {d : ℕ} {succs : List (Cpl × Node)}
    (hfind : pairs.find? (fun pv => pv.1 == d) = none) :
    indexCore pairs (.node d succs) = (indexList pairs succs).map (fun newSuccs =>
      normalize (d - (pairs.filter (fun pv => pv.1 < d)).length) newSuccs) := by
  simp only [indexCore, hfind]

theorem indexList_error_ibv {pairs : List (ℕ × ℕ)} :
    ∀ l : List (Cpl × Node),
      (∀ p ∈ l, ∀ e', indexCore pairs p.2 = .error e' → e' = TDDErr.InvalidBranchValue) →
      ∀ e, indexList pairs l = .error e → e = TDDErr.InvalidBranchValue := by
  intro l
  induction l with
  | nil =>
      intro _ e he
      rw [indexList_nil] at he
      exact Except.noConfusion he
  | cons hd tl ih =>
      intro hmem e he
      obtain ⟨w, c⟩ := hd
      rw [indexList_cons] at he
      cases hcore : indexCore pairs c with
      | error e1 =>
          rw [hcore, except_bind_error] at he
          have := (Except.error.injEq _ _).mp he
          exact this ▸ hmem (w, c) (List.mem_cons_self _ _) e1 hcore
      | ok r =>
          rw [hcore, except_bind_ok] at he
          cases hrest : indexList pairs tl with
          | error e2 =>
              rw [hrest, except_bind_error] at he
              have := (Except.error.injEq _ _).mp he
              exact this ▸ ih (fun p hp => hmem p (List.mem_cons_of_mem _ hp)) e2 hrest
          | ok rest =>
              rw [hrest, except_bind_ok] at he
              exact Except.noConfusion he

theorem indexCore_error_ibv :
    ∀ (n : Node) (pairs : List (ℕ × ℕ)) (e : TDDErr),
      indexCore pairs n = .error e → e = TDDErr.InvalidBranchValue := by
  intro n
  induction n using Node.rec_mem with
  | ht =>
      intro pairs e he
      rw [indexCore_terminal] at he
      exact Except.noConfusion he
  | hn d succs ih =>
      intro pairs e he
      cases hfind : pairs.find? (fun pv => pv.1 == d) with
      | some pv =>
          cases hg : succs.get? pv.2 with
          | some wc =>
              obtain ⟨w, c⟩ := wc
              rw [indexCore_node_hit hfind hg] at he
              cases hcore : indexCore pairs c with
              | error e1 =>
                  rw [hcore, except_map_error] at he
                  have := (Except.error.injEq _ _).mp he
                  exact this ▸ ih (w, c) (List.get?_mem hg) pairs e1 hcore
              | ok r =>
                  rw [hcore, except_map_ok] at he
                  exact Except.noConfusion he
          | none =>
              rw [indexCore_node_hit_oob hfind hg] at he
              exact ((Except.error.injEq _ _).mp he).symm
      | none =>
          rw [indexCore_node_miss hfind] at he
          cases hlist : indexList pairs succs with
          | error e1 =>
              rw [hlist, except_map_error] at he
              have := (Except.error.injEq _ _).mp he
              exact this ▸ indexList_error_ibv succs
                (fun p hp e' => ih p hp pairs e') e1 hlist
          | ok l =>
              rw [hlist, except_map_ok] at he
              exact Except.noConfusion he

end weighted_node

theorem TDDm.index_oor_iff {t : TDDm} (hwf : t.WellFormed) (pairs : List (ℕ × ℕ)) :
    (t.index pairs = .error .IndexOutOfRange ↔ ∃ pv ∈ pairs, t.dim_data ≤ pv.1) := by
  have hlen : (order_inverse t.index_order).length = t.data_shape.length := by
    rw [order_inverse_length, perm_range_length hwf]
  simp only [TDDm.index]
  by_cases hany : pairs.any (fun pv => decide ((order_inverse t.index_order).length ≤ pv.1))
  · rw [if_pos hany]
    simp only [List.any_eq_true, decide_eq_true_eq] at hany
    obtain ⟨pv, hpv, hge⟩ := hany
    simp only [true_iff]
    exact ⟨pv, hpv, by rw [TDDm.dim_data]; omega⟩
  · rw [if_neg hany]
    simp only [List.any_eq_true, decide_eq_true_eq, not_exists, not_and, not_le] at hany
    constructor
    · intro he
      cases hidx : weighted_node.index (t.node, t.weights)
          (pairs.map (fun pv => ((order_inverse t.index_order).getD pv.1 0, pv.2))) with
      | error e =>
          rw [hidx, except_map_error] at he
          have he' := (Except.error.injEq _ _).mp he
          have heibv : e = TDDErr.InvalidBranchValue := by
            rw [weighted_node.index] at hidx
            cases hcore : weighted_node.indexCore
                (pairs.map (fun pv => ((order_inverse t.index_order).getD pv.1 0, pv.2)))
                t.node with
            | error e2 =>
                rw [hcore, except_map_error] at hidx
                have := (Except.error.injEq _ _).mp hidx
                exact this ▸ weighted_node.indexCore_error_ibv _ _ _ hcore
            | ok r =>
                rw [hcore, except_map_ok] at hidx
                exact Except.noConfusion hidx
          rw [heibv] at he'
          exact TDDErr.noConfusion he'.symm
      | ok r =>
          rw [hidx, except_map_ok] at he
          exact Except.noConfusion he
    · rintro ⟨pv, hpv, hge⟩
      have := hany pv hpv
      rw [TDDm.dim_data] at hge
      omega

theorem filter_contains_length {ps : List ℕ} {n : ℕ} (hnd : ps.Nodup)
    (hmem : ∀ p ∈ ps, p < n) :
    ((List.range n).filter (fun i => ps.contains i)).length = ps.length := by
  have hperm : ((List.range n).filter (fun i => ps.contains i)).Perm ps := by
    rw [List.perm_ext_iff_of_nodup ((List.nodup_range n).filter _) hnd]
    intro i
    rw [List.mem_filter, List.mem_range]
    constructor
    · rintro ⟨_, hc⟩
      simpa using hc
    · intro hi
      exact ⟨hmem i hi, by simpa using hi⟩
  exact hperm.length_eq

/-- Success of the facade `index` under well-formed bookkeeping: pairwise
distinct in-range positions with in-range values index a canonical diagram
without error, removing one axis per pair. -/
theorem TDDm.index_ok {t : TDDm} (hwf : t.WellFormed) (hc : t.Canonical)
    {pairs : List (ℕ × ℕ)}
    (hnd : (pairs.map (fun pv => pv.1)).Nodup)
    (hpv : ∀ pv ∈ pairs, pv.1 < t.dim_data ∧ pv.2 < t.data_shape.getD pv.1 0) :
    ∃ r, t.index pairs = .ok r ∧ r.dim_data = t.dim_data - pairs.length := by
  have hlen := perm_range_length hwf
  have hrevlen : (order_inverse t.index_order).length = t.data_shape.length := by
    rw [order_inverse_length]; omega
  have hinvp := order_inverse_perm hwf
  -- positions pass the bounds check
  have hany : ¬ pairs.any (fun pv => decide ((order_inverse t.index_order).length ≤ pv.1)) = true := by
    simp only [List.any_eq_true, decide_eq_true_eq, not_exists, not_and, not_le]
    intro pv hpvm
    have := (hpv pv hpvm).1
    rw [TDDm.dim_data] at this
    omega
  -- the mapped storage positions are valid index pairs
  set inner := pairs.map (fun pv => ((order_inverse t.index_order).getD pv.1 0, pv.2))
    with hinner
  have hrevmem : ∀ pv ∈ pairs, (order_inverse t.index_order).getD pv.1 0 < t.index_order.length := by
    intro pv hpvm
    have h1 : pv.1 < (order_inverse t.index_order).length := by
      rw [hrevlen]
      have := (hpv pv hpvm).1
      rwa [TDDm.dim_data] at this
    have : (order_inverse t.index_order).getD pv.1 0 ∈ order_inverse t.index_order := by
      rw [List.getD_eq_getElem?_getD, List.getElem?_eq_getElem h1]
      exact List.getElem_mem h1
    have := (perm_range_mem hinvp).mp this
    omega
  have hok : IndexPairsOk (storageShape t.data_shape t.index_order) inner := by
    constructor
    · rw [hinner, List.map_map]
      have hmapeq : ((fun pv : ℕ × ℕ => pv.1) ∘
          (fun pv : ℕ × ℕ => ((order_inverse t.index_order).getD pv.1 0, pv.2)))
          = (fun a => (order_inverse t.index_order).getD a 0) ∘ (fun pv : ℕ × ℕ => pv.1) := rfl
      rw [hmapeq, ← List.map_map]
      apply List.Nodup.map_on ?_ hnd
      intro a ha b hb hab
      obtain ⟨pa, hpa, rfl⟩ := List.mem_map.mp ha
      obtain ⟨pb, hpb, rfl⟩ := List.mem_map.mp hb
      have h1 : pa.1 < t.data_shape.length := by
        have := (hpv pa hpa).1; rwa [TDDm.dim_data] at this
      have h2 : pb.1 < t.data_shape.length := by
        have := (hpv pb hpb).1; rwa [TDDm.dim_data] at this
      have := congrArg (fun d => t.index_order.getD d 0) hab
      simp only at this
      rwa [io_oi hwf h1, io_oi hwf h2] at this
    · intro pv hpvm
      rw [hinner] at hpvm
      obtain ⟨p, hp, rfl⟩ := List.mem_map.mp hpvm
      constructor
      · rw [storageShape_length]
        exact hrevmem p hp
      · rw [storageShape_getD (hrevmem p hp)]
        have h1 : p.1 < t.data_shape.length := by
          have := (hpv p hp).1; rwa [TDDm.dim_data] at this
        rw [io_oi hwf h1]
        exact (hpv p hp).2
  obtain ⟨r, hr, _, _, _, _⟩ := weighted_node.indexCore_main hok t.node hc.1
  refine ⟨⟨t.weights * r.2, (t.index_reduce_proc (inner.map (fun pv => pv.1))).1, r.1,
    (t.index_reduce_proc (inner.map (fun pv => pv.1))).2⟩, ?_, ?_⟩
  · simp only [TDDm.index]
    rw [if_neg hany]
    rw [weighted_node.index, hr, except_map_ok, except_map_ok]
  · simp only [TDDm.dim_data, TDDm.index_reduce_proc, List.length_map]
    have hps : (inner.map (fun pv => pv.1)).Nodup := hok.1
    have hpsm : ∀ p ∈ inner.map (fun pv => pv.1), p < t.data_shape.length := by
      intro p hp
      obtain ⟨pv, hpvm, rfl⟩ := List.mem_map.mp hp
      have := (hok.2 pv hpvm).1
      rwa [storageShape_length, hlen] at this
    have hflen := filter_not_length
      (fun i => (inner.map (fun pv => pv.1)).contains i) t.data_shape.length
    have hclen := filter_contains_length hps hpsm
    have hinlen : (inner.map (fun pv => pv.1)).length = pairs.length := by
      rw [hinner, List.map_map, List.length_map]
    -- the survivors filter in index_reduce_proc matches the contains form
    have hpred : (fun i => !((inner.map (fun pv => pv.1)).contains i))
        = (fun i => !((inner.map (fun pv => pv.1)).contains i)) := rfl
    omega

/-! ## `contract` with no pairs, and materialization -/

theorem TDDm.contract_empty {t : TDDm} (hlen : t.index_order.length = t.data_shape.length) :
    t.contract ([], []) = .ok ⟨t.weights, t.data_shape, t.node, pyArgsort t.index_order⟩ := by
  simp only [TDDm.contract]
  rw [if_neg (by simp)]
  have hinner : (List.range ([] : List ℕ).length).map (fun k =>
      ((order_inverse t.index_order).getD (([] : List ℕ).getD k 0) 0,
       (order_inverse t.index_order).getD (([] : List ℕ).getD k 0) 0)) = [] := by
    simp
  rw [hinner, TDDm.contractLoop, except_map_ok]
  have hsurv : (List.range t.data_shape.length).filter
      (fun i => !((([] : List (ℕ × ℕ)).flatMap (fun pv => [pv.1, pv.2])).contains i))
      = List.range t.data_shape.length := by
    simp
  simp only [TDDm.index_reduce_proc, hsurv]
  rw [map_getD_range t.data_shape]
  have hio : (List.range t.data_shape.length).map (fun i => t.index_order.getD i 0)
      = t.index_order := by
    rw [← hlen]
    exact map_getD_range t.index_order
  rw [hio]

theorem TDDm.CUDAcpl_denote {t : TDDm} (hwf : t.WellFormed) (x : List ℕ) :
    t.CUDAcpl x = t.denote ((List.range t.data_shape.length).map (fun a =>
      x.getD ((order_inverse t.index_order).getD
        ((order_inverse t.index_order).getD a 0) 0) 0)) := by
  have hlen := perm_range_length hwf
  have hinvp := order_inverse_perm hwf
  have hinvlen := perm_range_length hinvp
  simp only [TDDm.CUDAcpl, TDDm.to_CUDAcpl_Tensor, TDDm.torchPermute, TDDm.denote,
    TDDm.storageIdx, TDDm.global_order]
  congr 1
  congr 1
  apply List.ext_getElem (by simp; omega)
  intro d h1 h2
  have hd : d < t.index_order.length := by simpa using h2
  have hiod : t.index_order.getD d 0 < t.data_shape.length := by
    apply (perm_range_mem hwf).mp
    rw [List.getD_eq_getElem?_getD, List.getElem?_eq_getElem hd]
    exact List.getElem_mem hd
  have lhs_eq : ((order_inverse t.index_order).map (fun a => x.getD a 0)).getD d 0
      = x.getD ((order_inverse t.index_order).getD d 0) 0 := by
    apply storageIdx_getD
    rw [order_inverse_length]; omega
  have rhs_eq : (t.index_order.map (fun a =>
      ((List.range t.data_shape.length).map (fun a =>
        x.getD ((order_inverse t.index_order).getD
          ((order_inverse t.index_order).getD a 0) 0) 0)).getD a 0)).getD d 0
      = x.getD ((order_inverse t.index_order).getD d 0) 0 := by
    have h3 := @storageIdx_getD t.index_order
      ((List.range t.data_shape.length).map (fun a =>
        x.getD ((order_inverse t.index_order).getD
          ((order_inverse t.index_order).getD a 0) 0) 0)) d hd
    rw [TDDm.storageIdx] at h3
    rw [h3, getD_map_range _ hiod, oi_io hwf (show d < t.data_shape.length by omega)]
  have hl1 : d < ((order_inverse t.index_order).map (fun a => x.getD a 0)).length := by
    simpa using h1
  have hl2 : d < (t.index_order.map (fun a =>
      ((List.range t.data_shape.length).map (fun a =>
        x.getD ((order_inverse t.index_order).getD
          ((order_inverse t.index_order).getD a 0) 0) 0)).getD a 0)).length := by
    simpa using h2
  rw [List.getD_eq_getElem?_getD, List.getElem?_eq_getElem hl1] at lhs_eq
  rw [List.getD_eq_getElem?_getD, List.getElem?_eq_getElem hl2] at rhs_eq
  simp only [Option.getD_some] at lhs_eq rhs_eq
  rw [lhs_eq, rhs_eq]

/-! ## Single-pair `contract` against its brute-force description -/

/-- The brute-force contraction the spec describes for one paired axis: for
each value `v` in the shared axis's range, fix both positions to `v` via
`index`, and accumulate the results with `sum`. -/
def bruteForceContract (t : TDDm) (i j : ℕ) : Except TDDErr TDDm :=
  ((List.range (t.data_shape.getD i 0)).mapM (fun v => t.index [(i, v), (j, v)])).bind
    (fun terms =>
      match terms with
      | [] => .error .InvalidBranchValue
      | t0 :: rest => .ok (rest.foldl TDDm.sum t0))

theorem tddm_sum_build (proc : List ℕ × List ℕ) (r1 r2 : Node × Cpl) :
    TDDm.sum ⟨r1.2, proc.1, r1.1, proc.2⟩ ⟨r2.2, proc.1, r2.1, proc.2⟩
      = ⟨(weighted_node.sum r1 r2).2, proc.1, (weighted_node.sum r1 r2).1, proc.2⟩ := rfl

theorem except_seq_ok {α β ε : Type} (a : α) (f : α → Except ε β) :
    ((Except.ok a : Except ε α) >>= f) = f a := rfl

theorem except_seq_error {α β ε : Type} (e : ε) (f : α → Except ε β) :
    ((Except.error e : Except ε α) >>= f) = .error e := rfl

theorem except_pure {α ε : Type} (a : α) : (pure a : Except ε α) = .ok a := rfl

theorem fold_align {E : Type} (g : ℕ → Except E (Node × Cpl))
    (build : Node × Cpl → TDDm)
    (hbuild : ∀ r1 r2, TDDm.sum (build r1) (build r2) = build (weighted_node.sum r1 r2)) :
    ∀ (vs : List ℕ) (acc : Node × Cpl),
      ((vs.foldlM (fun acc v => do
          let nw ← g v
          pure (weighted_node.sum acc nw)) acc).bind
        (fun summed => (.ok (build summed) : Except E TDDm)))
      = (vs.mapM (fun v => (g v).map build)).bind
          (fun terms => .ok (terms.foldl TDDm.sum (build acc))) := by
  intro vs
  induction vs with
  | nil =>
      intro acc
      rw [List.foldlM_nil, List.mapM_nil, except_pure, except_pure,
        except_bind_ok, except_bind_ok, List.foldl_nil]
  | cons v vs ih =>
      intro acc
      rw [List.foldlM_cons, List.mapM_cons]
      cases hg : g v with
      | error e =>
          simp only [hg, except_seq_error, except_bind_error, except_map_error]
      | ok nw =>
          simp only [hg, except_seq_ok, except_map_ok, pure_bind]
          rw [ih (weighted_node.sum acc nw)]
          cases hm : vs.mapM (fun v => (g v).map build) with
          | error e =>
              simp only [except_seq_error, except_bind_error]
          | ok terms =>
              simp only [except_seq_ok, except_pure, except_bind_ok]
              rw [List.foldl_cons, hbuild]

theorem contractLoop_single (t0 : TDDm) (rw0 : Node × Cpl) (a b : ℕ) :
    TDDm.contractLoop t0 rw0 [(a, b)]
      = (do
          let seed ← weighted_node.index rw0 [(a, 0), (b, 0)]
          let summed ← (List.range' 1
              (t0.data_shape.getD (t0.index_order.getD a 0) 0 - 1)).foldlM
            (fun acc i => do
              let nw ← weighted_node.index rw0 [(a, i), (b, i)]
              pure (weighted_node.sum acc nw)) seed
          pure summed) := by
  simp only [TDDm.contractLoop, List.map_nil]
  rfl

/-- C3: single-pair contraction is exactly the brute-force accumulation the
spec describes — for each value `v` of the shared axis, fix both positions to
`v` via the facade `index` and accumulate the results with the facade `sum`
(`bruteForceContract`); the two computations agree as programs, including
their error behaviour. -/
theorem contract_single_eq_brute {t : TDDm} (hwf : t.WellFormed) {i j : ℕ}
    (hi : i < t.dim_data) (hj : j < t.dim_data) (hpos : 0 < t.data_shape.getD i 0) :
    t.contract ([i], [j]) = bruteForceContract t i j := by
  have hlen := perm_range_length hwf
  rw [TDDm.dim_data] at hi hj
  have hrevlen : (order_inverse t.index_order).length = t.data_shape.length := by
    rw [order_inverse_length]; omega
  have hcheck : ¬ (([i] ++ [j]).any
      (fun e => decide ((order_inverse t.index_order).length ≤ e))) = true := by
    simp only [List.any_eq_true, List.mem_append, List.mem_singleton,
      decide_eq_true_eq, not_exists, not_and, not_le]
    rintro e (rfl | rfl) <;> omega
  have hidx : ∀ v, t.index [(i, v), (j, v)]
      = (weighted_node.index (t.node, t.weights)
          [((order_inverse t.index_order).getD i 0, v),
           ((order_inverse t.index_order).getD j 0, v)]).map (fun r =>
          (⟨r.2, (t.index_reduce_proc
              [(order_inverse t.index_order).getD i 0,
               (order_inverse t.index_order).getD j 0]).1, r.1,
            (t.index_reduce_proc
              [(order_inverse t.index_order).getD i 0,
               (order_inverse t.index_order).getD j 0]).2⟩ : TDDm)) := by
    intro v
    simp only [TDDm.index]
    rw [if_neg (by
      simp only [List.any_eq_true, List.mem_cons, List.not_mem_nil, or_false,
        decide_eq_true_eq, not_exists, not_and, not_le]
      rintro pv (rfl | rfl) <;> simp <;> omega)]
    rfl
  have hwidth : t.data_shape.getD
      (t.index_order.getD ((order_inverse t.index_order).getD i 0) 0) 0
      = t.data_shape.getD i 0 := by
    rw [io_oi hwf hi]
  simp only [TDDm.contract]
  rw [if_neg hcheck]
  have hinner : (List.range ([i] : List ℕ).length).map (fun k =>
      ((order_inverse t.index_order).getD (([i] : List ℕ).getD k 0) 0,
       (order_inverse t.index_order).getD (([j] : List ℕ).getD k 0) 0))
      = [((order_inverse t.index_order).getD i 0,
          (order_inverse t.index_order).getD j 0)] := rfl
  rw [hinner, contractLoop_single, hwidth]
  simp only [bruteForceContract, hidx]
  have hfa := fold_align
    (fun v => weighted_node.index (t.node, t.weights)
      [((order_inverse t.index_order).getD i 0, v),
       ((order_inverse t.index_order).getD j 0, v)])
    (fun r => (⟨r.2, (t.index_reduce_proc
        [(order_inverse t.index_order).getD i 0,
         (order_inverse t.index_order).getD j 0]).1, r.1,
        (t.index_reduce_proc
        [(order_inverse t.index_order).getD i 0,
         (order_inverse t.index_order).getD j 0]).2⟩ : TDDm))
    (fun _ _ => rfl)
    (List.range' 1 (t.data_shape.getD i 0 - 1))
  simp only [] at hfa
  have hrange : List.range (t.data_shape.getD i 0)
      = 0 :: List.range' 1 (t.data_shape.getD i 0 - 1) := by
    rw [List.range_eq_range']
    rw [show t.data_shape.getD i 0 = (t.data_shape.getD i 0 - 1) + 1 by omega]
    rw [List.range'_succ]
    simp
  rw [hrange, List.mapM_cons]
  cases hg0 : weighted_node.index (t.node, t.weights)
      [((order_inverse t.index_order).getD i 0, 0),
       ((order_inverse t.index_order).getD j 0, 0)] with
  | error e =>
      simp only [except_seq_error, except_map_error, except_bind_error]
  | ok seed =>
      simp only [except_seq_ok, except_map_ok]
      rw [bind_pure]
      cases hf : (List.range' 1 (t.data_shape.getD i 0 - 1)).foldlM
          (fun acc v => do
            let nw ← weighted_node.index (t.node, t.weights)
              [((order_inverse t.index_order).getD i 0, v),
               ((order_inverse t.index_order).getD j 0, v)]
            pure (weighted_node.sum acc nw)) seed with
      | error e =>
          have hfa2 := hfa seed
          rw [hf, except_bind_error] at hfa2
          cases hm : (List.range' 1 (t.data_shape.getD i 0 - 1)).mapM
              (fun v => Except.map (fun r =>
                (⟨r.2, (t.index_reduce_proc
                  [(order_inverse t.index_order).getD i 0,
                   (order_inverse t.index_order).getD j 0]).1, r.1,
                  (t.index_reduce_proc
                  [(order_inverse t.index_order).getD i 0,
                   (order_inverse t.index_order).getD j 0]).2⟩ : TDDm))
                (weighted_node.index (t.node, t.weights)
                  [((order_inverse t.index_order).getD i 0, v),
                   ((order_inverse t.index_order).getD j 0, v)])) with
          | error e2 =>
              rw [hm, except_bind_error] at hfa2
              simp only [except_map_error, except_seq_ok, except_seq_error,
                except_bind_error]
              exact hfa2
          | ok ts =>
              rw [hm, except_bind_ok] at hfa2
              exact Except.noConfusion hfa2
      | ok summed =>
          have hfa2 := hfa seed
          rw [hf, except_bind_ok] at hfa2
          cases hm : (List.range' 1 (t.data_shape.getD i 0 - 1)).mapM
              (fun v => Except.map (fun r =>
                (⟨r.2, (t.index_reduce_proc
                  [(order_inverse t.index_order).getD i 0,
                   (order_inverse t.index_order).getD j 0]).1, r.1,
                  (t.index_reduce_proc
                  [(order_inverse t.index_order).getD i 0,
                   (order_inverse t.index_order).getD j 0]).2⟩ : TDDm))
                (weighted_node.index (t.node, t.weights)
                  [((order_inverse t.index_order).getD i 0, v),
                   ((order_inverse t.index_order).getD j 0, v)])) with
          | error e2 =>
              rw [hm, except_bind_error] at hfa2
              exact Except.noConfusion hfa2
          | ok ts =>
              rw [hm, except_bind_ok] at hfa2
              have hfold := Except.ok.inj hfa2
              simp only [except_map_ok, except_seq_ok, except_pure, except_bind_ok]
              rw [← hfold]
              rfl

/-! ## The claims -/

/-- The renumbering the spec describes: a pending position is shifted down by
the number of removed positions strictly below it, both comparisons made
against the original position. -/
def specContractRenumber (item : ℕ × ℕ) (p : ℕ × ℕ) : ℕ × ℕ :=
  ((p.1 - ((if item.1 < p.1 then 1 else 0) + (if item.2 < p.1 then 1 else 0))),
   (p.2 - ((if item.1 < p.2 then 1 else 0) + (if item.2 < p.2 then 1 else 0))))

/-- C5: the source's pending-pair renumbering in `contract` compares the
*already decremented* coordinate against the second removed position, so a
pending position above both removed positions 0 and 1 (here position 2, and
likewise 3) is shifted down by one where the claimed rule (shift by the
number of removed positions strictly below the original position) shifts it
by two: the code maps `(2, 3)` to `(1, 1)` where the claim requires
`(0, 1)`. -/
theorem c5_contract_renumber_off_by_one :
    TDDm.contractRenumber (0, 1) (2, 3) = (1, 1) ∧
    specContractRenumber (0, 1) (2, 3) = (0, 1) ∧
    TDDm.contractRenumber (0, 1) (2, 3) ≠ specContractRenumber (0, 1) (2, 3) := by
  refine ⟨rfl, rfl, ?_⟩
  decide

theorem as_tensor_error_eq {T : List ℕ → Cpl} {ds io : List ℕ} {e : TDDErr}
    (h : TDDm.as_tensor T ds io = .error e) : e = .ShapeOrderMismatch := by
  simp only [TDDm.as_tensor] at h
  split at h <;> split at h
  all_goals
    first
    | exact ((Except.error.injEq _ _).mp h).symm
    | exact Except.noConfusion h

/-- C9: `as_tensor` fails with `ShapeOrderMismatch` exactly when the supplied
order is nonempty and its length differs from the number of data axes; an
empty order is exempt (it defaults to the trivial order), so construction
succeeds whenever the lengths match *or* the order is empty, refuting the
claim's "fails whenever the length differs". -/
theorem c9_as_tensor_shape_check (T : List ℕ → Cpl) (ds io : List ℕ) :
    (TDDm.as_tensor T ds io = .error .ShapeOrderMismatch ↔
      io ≠ [] ∧ io.length ≠ ds.length) ∧
    ((∃ t, TDDm.as_tensor T ds io = .ok t) ↔ (io = [] ∨ io.length = ds.length)) := by
  constructor
  · constructor
    · intro h
      exact TDDm.as_tensor_error_iff.mp ⟨_, h⟩
    · intro hcond
      obtain ⟨e, he⟩ := TDDm.as_tensor_error_iff.mpr hcond
      rw [as_tensor_error_eq he] at he
      exact he
  · constructor
    · rintro ⟨t, ht⟩
      by_contra hcond
      push_neg at hcond
      obtain ⟨e, he⟩ := TDDm.as_tensor_error_iff.mpr ⟨hcond.1, hcond.2⟩
      rw [ht] at he
      exact Except.noConfusion he
    · intro hcond
      cases h : TDDm.as_tensor T ds io with
      | ok t => exact ⟨t, rfl⟩
      | error e =>
          have := TDDm.as_tensor_error_iff.mp ⟨e, h⟩
          rcases hcond with hcond | hcond
          · exact absurd hcond this.1
          · exact absurd hcond this.2

/-- C9 counterexample: with an empty order and a rank-1 shape the lengths
differ (0 vs 1) yet construction succeeds. -/
theorem c9_counterexample_empty_order :
    (∃ t, TDDm.as_tensor (fun _ => (1 : Cpl)) [2] [] = .ok t) ∧
    ([] : List ℕ).length ≠ ([2] : List ℕ).length := by
  refine ⟨?_, by decide⟩
  cases h : TDDm.as_tensor (fun _ => (1 : Cpl)) [2] [] with
  | ok t => exact ⟨t, rfl⟩
  | error e =>
      have := TDDm.as_tensor_error_iff.mp ⟨e, h⟩
      exact absurd rfl this.1

/-- C10: contracting along no axes copies the diagram but replaces
`index_order` with the argsort of its entries, which is the *inverse*
permutation, not the original order the claim states; weights, shape and node
are preserved.  (Weight-tensor freshness — the source's `clone()` — is about
object identity and has no counterpart in the value model.) -/
theorem c10_contract_empty {t : TDDm} (hwf : t.WellFormed) :
    t.contract ([], []) = .ok ⟨t.weights, t.data_shape, t.node,
      order_inverse t.index_order⟩ := by
  rw [TDDm.contract_empty (by rw [perm_range_length hwf]),
    pyArgsort_eq_order_inverse hwf]

/-- C10 witness: the characterization applied to a concrete diagram. -/
theorem c10_witness :
    (⟨1, [2], .terminal, [0]⟩ : TDDm).WellFormed ∧
    (⟨1, [2], .terminal, [0]⟩ : TDDm).contract ([], []) = .ok ⟨1, [2], .terminal,
      order_inverse [0]⟩ :=
  ⟨by decide, c10_contract_empty (by decide)⟩

/-- C10 counterexample: for a non-involutive order the returned `index_order`
is not the original one, refuting the claim that it is unchanged. -/
theorem c10_counterexample_order_inverted :
    (⟨1, [2, 2, 2], .terminal, [1, 2, 0]⟩ : TDDm).contract ([], []) ≠
      .ok ⟨1, [2, 2, 2], .terminal, [1, 2, 0]⟩ := by
  rw [TDDm.contract_empty (by decide), pyArgsort_eq_order_inverse
    (show ([1, 2, 0] : List ℕ).Perm (List.range 3) by decide)]
  intro h
  have := congrArg (fun r => match r with
    | Except.ok u => u.index_order
    | Except.error _ => []) h
  simp only at this
  have : order_inverse [1, 2, 0] = [1, 2, 0] := this
  revert this
  decide

/-- The facade `sum` of equal-bookkeeping canonical diagrams denotes the
pointwise sum. -/
theorem TDDm.sum_denote {a b : TDDm} (hds : b.data_shape = a.data_shape)
    (hio : b.index_order = a.index_order) (hwf : a.WellFormed)
    (hca : a.Canonical) (hcb : b.Canonical) :
    ∀ x, Valid a.data_shape x →
      (TDDm.sum a b).denote x = a.denote x + b.denote x := by
  intro x hv
  have hsv := storageIdx_valid (fun e he => (perm_range_mem hwf).mp he) hv
  have hcb' : CanonicalN (storageShape a.data_shape a.index_order) b.node := by
    have := hcb.1
    rwa [hds, hio] at this
  have hse := @weighted_node.sum_eval (storageShape a.data_shape a.index_order)
    (a.node, a.weights) (b.node, b.weights) hca.1 hcb'
    (TDDm.storageIdx a.index_order x) hsv
  simp only [TDDm.denote, TDDm.sum, hio]
  exact hse

/-- `sum` preserves canonicity for equal-bookkeeping canonical operands. -/
theorem TDDm.sum_canonicalT {a b : TDDm} (hds : b.data_shape = a.data_shape)
    (hio : b.index_order = a.index_order) (hca : a.Canonical) (hcb : b.Canonical) :
    (TDDm.sum a b).Canonical := by
  have hcb' : CanonicalN (storageShape a.data_shape a.index_order) b.node := by
    have := hcb.1
    rwa [hds, hio] at this
  obtain ⟨h1, h2, _⟩ := @weighted_node.sum_canonical
    (storageShape a.data_shape a.index_order)
    (a.node, a.weights) (b.node, b.weights) hca.1 hcb'
  exact ⟨h1, h2⟩

/-- Canonical equal-bookkeeping diagrams with equal denotations are equal
facade values. -/
theorem TDDm.eq_of_denote_eq {u v : TDDm}
    (hds : v.data_shape = u.data_shape) (hio : v.index_order = u.index_order)
    (hwf : u.WellFormed) (hpos : PosShape u.data_shape)
    (hcu : u.Canonical) (hcv : v.Canonical)
    (heq : ∀ x, Valid u.data_shape x → u.denote x = v.denote x) : u = v := by
  obtain ⟨hn, hw⟩ := (TDDm.denote_inj hds hio hwf hpos hcu hcv).mp heq
  obtain ⟨uw, uds, un, uio⟩ := u
  obtain ⟨vw, vds, vn, vio⟩ := v
  simp only [TDDm.mk.injEq]
  exact ⟨hw, hds.symm, hn, hio.symm⟩

/-- C4: the facade `sum` performs no shape check at all — it is a total
function (amending the claimed `ShapeMismatch` failure); the result always
carries `a`'s `data_shape` and `index_order`, and for equal-bookkeeping
canonical operands it denotes the pointwise sum. -/
theorem c4_sum_total (a b : TDDm) (hds : b.data_shape = a.data_shape)
    (hio : b.index_order = a.index_order) (hwf : a.WellFormed)
    (hca : a.Canonical) (hcb : b.Canonical) :
    (TDDm.sum a b).data_shape = a.data_shape ∧
    (TDDm.sum a b).index_order = a.index_order ∧
    ∀ x, Valid a.data_shape x →
      (TDDm.sum a b).denote x = a.denote x + b.denote x :=
  ⟨rfl, rfl, TDDm.sum_denote hds hio hwf hca hcb⟩

/-- C4 witness: the amended statement applied to concrete equal-bookkeeping
diagrams. -/
theorem c4_witness :
    (⟨1, [2], .terminal, [0]⟩ : TDDm).WellFormed ∧
    (⟨1, [2], .terminal, [0]⟩ : TDDm).Canonical ∧
    ((TDDm.sum ⟨1, [2], .terminal, [0]⟩ ⟨1, [2], .terminal, [0]⟩).data_shape = [2] ∧
     (TDDm.sum ⟨1, [2], .terminal, [0]⟩ ⟨1, [2], .terminal, [0]⟩).index_order = [0] ∧
     ∀ x, Valid [2] x →
       (TDDm.sum ⟨1, [2], .terminal, [0]⟩ ⟨1, [2], .terminal, [0]⟩).denote x =
         (⟨1, [2], .terminal, [0]⟩ : TDDm).denote x +
         (⟨1, [2], .terminal, [0]⟩ : TDDm).denote x) :=
  ⟨by decide, ⟨canonicalN_terminal _, fun _ => rfl⟩,
   c4_sum_total _ _ rfl rfl (by decide)
     ⟨canonicalN_terminal _, fun _ => rfl⟩ ⟨canonicalN_terminal _, fun _ => rfl⟩⟩

/-- C4 counterexample: operands of different shapes produce a well-defined
result carrying `a`'s bookkeeping — no `ShapeMismatch` is ever raised. -/
theorem c4_counterexample_no_shape_check :
    TDDm.sum ⟨1, [2], .terminal, [0]⟩ ⟨1, [3, 4], .terminal, [0, 1]⟩
      = ⟨2, [2], .terminal, [0]⟩ ∧
    (⟨1, [2], .terminal, [0]⟩ : TDDm).data_shape ≠
      (⟨1, [3, 4], .terminal, [0, 1]⟩ : TDDm).data_shape := by
  refine ⟨?_, by decide⟩
  simp only [TDDm.sum, weighted_node.sum_tt, TDDm.mk.injEq]
  norm_num [Cpl.ext_iff]

/-- C3 witness: the refinement applied to a concrete diagram and axis pair. -/
theorem c3_witness :
    (⟨1, [2, 2], .terminal, [0, 1]⟩ : TDDm).WellFormed ∧
    (0 : ℕ) < (⟨1, [2, 2], .terminal, [0, 1]⟩ : TDDm).dim_data ∧
    (1 : ℕ) < (⟨1, [2, 2], .terminal, [0, 1]⟩ : TDDm).dim_data ∧
    (0 : ℕ) < (⟨1, [2, 2], .terminal, [0, 1]⟩ : TDDm).data_shape.getD 0 0 ∧
    (⟨1, [2, 2], .terminal, [0, 1]⟩ : TDDm).contract ([0], [1])
      = bruteForceContract ⟨1, [2, 2], .terminal, [0, 1]⟩ 0 1 :=
  ⟨by decide, by decide, by decide, by decide,
   contract_single_eq_brute (by decide) (by decide) (by decide) (by decide)⟩

/-- C1: construction round-trips *denotationally* — the diagram built by
`as_tensor` denotes the input tensor on every valid index — but
materialization (`CUDAcpl`) composes `order_inverse` with the final
`global_order` permutation in the same direction, reading logical index
`x ∘ io⁻¹ ∘ io⁻¹` instead of `x`; the claimed round trip therefore only
holds when `index_order` is an involution. -/
theorem c1_roundtrip_materialize (T : List ℕ → Cpl) (ds io : List ℕ)
    (hp : io ≠ [] → io.Perm (List.range ds.length)) :
    ∃ t, TDDm.as_tensor T ds io = .ok t ∧
      (∀ x, Valid ds x → t.denote x = T x) ∧
      (∀ x, t.CUDAcpl x = t.denote ((List.range t.data_shape.length).map (fun a =>
        x.getD ((order_inverse t.index_order).getD
          ((order_inverse t.index_order).getD a 0) 0) 0))) ∧
      (t.index_order = order_inverse t.index_order →
        ∀ x, Valid ds x → t.CUDAcpl x = T x) := by
  have hperm := @TDDm.resultOrder_perm ds io hp
  have hlen := perm_range_length hperm
  cases h : TDDm.as_tensor T ds io with
  | error e =>
      exfalso
      have hcond := TDDm.as_tensor_error_iff.mp ⟨e, h⟩
      have : io.length = ds.length := by
        have := perm_range_length (hp hcond.1)
        omega
      exact hcond.2 this
  | ok t =>
      obtain ⟨hc, hwf, hds, hio⟩ := TDDm.as_tensor_canonical hp h
      have hden := TDDm.as_tensor_denote hp h
      refine ⟨t, rfl, hden, fun x => TDDm.CUDAcpl_denote hwf x, ?_⟩
      intro hinv x hv
      rw [TDDm.CUDAcpl_denote hwf x]
      have hxlen : x.length = ds.length := hv.1
      have hwf' : t.index_order.Perm (List.range ds.length) := by
        have := hwf
        rwa [TDDm.WellFormed, hds] at this
      have hlist : (List.range t.data_shape.length).map (fun a =>
          x.getD ((order_inverse t.index_order).getD
            ((order_inverse t.index_order).getD a 0) 0) 0) = x := by
        apply List.ext_getElem (by rw [List.length_map, List.length_range, hds]; omega)
        intro a h1 h2
        have ha : a < ds.length := by
          rw [List.length_map, List.length_range, hds] at h1
          omega
        simp only [List.getElem_map, List.getElem_range]
        have hstep : (order_inverse t.index_order).getD
            ((order_inverse t.index_order).getD a 0) 0 = a := by
          nth_rewrite 1 [hinv.symm]
          exact io_oi hwf' ha
        rw [hstep, List.getD_eq_getElem?_getD, List.getElem?_eq_getElem h2]
        rfl
      rw [hlist]
      exact hden x hv

/-- C1 witness: the characterization at a concrete tensor and order. -/
theorem c1_witness :
    (([1, 2, 0] : List ℕ) ≠ [] → ([1, 2, 0] : List ℕ).Perm (List.range 3)) ∧
    (∃ t, TDDm.as_tensor (fun x => ⟨(x.getD 0 0 : ℚ), 0⟩) [2, 2, 2] [1, 2, 0] = .ok t ∧
      (∀ x, Valid [2, 2, 2] x → t.denote x = ⟨(x.getD 0 0 : ℚ), 0⟩) ∧
      (∀ x, t.CUDAcpl x = t.denote ((List.range t.data_shape.length).map (fun a =>
        x.getD ((order_inverse t.index_order).getD
          ((order_inverse t.index_order).getD a 0) 0) 0))) ∧
      (t.index_order = order_inverse t.index_order →
        ∀ x, Valid [2, 2, 2] x → t.CUDAcpl x = ⟨(x.getD 0 0 : ℚ), 0⟩)) :=
  ⟨fun _ => by decide,
   c1_roundtrip_materialize (fun x => ⟨(x.getD 0 0 : ℚ), 0⟩) [2, 2, 2] [1, 2, 0]
     (fun _ => by decide)⟩

/-- C1 counterexample: with the non-involutive order `[1, 2, 0]`
materialization disagrees with the input tensor at the logical index
`[0, 0, 1]` (it reads the entry at `[0, 1, 0]` instead). -/
theorem c1_counterexample_materialize :
    ∃ t, TDDm.as_tensor
        (fun x => ⟨((4 * x.getD 0 0 + 2 * x.getD 1 0 + x.getD 2 0 + 1 : ℕ) : ℚ), 0⟩)
        [2, 2, 2] [1, 2, 0] = .ok t ∧
      t.CUDAcpl [0, 0, 1] ≠
        (fun x => ⟨((4 * x.getD 0 0 + 2 * x.getD 1 0 + x.getD 2 0 + 1 : ℕ) : ℚ), 0⟩)
          ([0, 0, 1] : List ℕ) := by
  cases h : TDDm.as_tensor
      (fun x => ⟨((4 * x.getD 0 0 + 2 * x.getD 1 0 + x.getD 2 0 + 1 : ℕ) : ℚ), 0⟩)
      [2, 2, 2] [1, 2, 0] with
  | error e =>
      exfalso
      have hcond := TDDm.as_tensor_error_iff.mp ⟨e, h⟩
      exact hcond.2 (by decide)
  | ok t =>
      obtain ⟨hc, hwf, hds, hio⟩ := TDDm.as_tensor_canonical (fun _ => by decide) h
      have hden := TDDm.as_tensor_denote (fun _ => by decide) h
      refine ⟨t, rfl, ?_⟩
      rw [TDDm.CUDAcpl_denote hwf]
      have hlist : (List.range t.data_shape.length).map (fun a =>
          ([0, 0, 1] : List ℕ).getD ((order_inverse t.index_order).getD
            ((order_inverse t.index_order).getD a 0) 0) 0) = [0, 1, 0] := by
        rw [hds, hio]
        decide
      rw [hlist, hden [0, 1, 0] (by decide)]
      intro hcontra
      have := congrArg Cpl.re hcontra
      norm_num at this

/-- C2: for canonical well-formed diagrams sharing the same `data_shape` and
`index_order` (the amendment: the claim is false across different orders),
denotational equality holds exactly when the node references are identical
and the dangling weights are equal; and two `as_tensor` constructions of
pointwise-equal tensors under the same order produce the identical node. -/
theorem c2_canonical_uniqueness (t1 t2 : TDDm)
    (hds : t2.data_shape = t1.data_shape) (hio : t2.index_order = t1.index_order)
    (hwf : t1.WellFormed) (hpos : PosShape t1.data_shape)
    (hc1 : t1.Canonical) (hc2 : t2.Canonical) :
    ((∀ x, Valid t1.data_shape x → t1.denote x = t2.denote x) ↔
      (t1.node = t2.node ∧ t1.weights = t2.weights)) ∧
    (∀ (T1 T2 : List ℕ → Cpl) (ds io : List ℕ) (u1 u2 : TDDm),
      (io ≠ [] → io.Perm (List.range ds.length)) → PosShape ds →
      TDDm.as_tensor T1 ds io = .ok u1 → TDDm.as_tensor T2 ds io = .ok u2 →
      (∀ x, Valid ds x → T1 x = T2 x) →
      u1.node = u2.node ∧ u1.weights = u2.weights) := by
  constructor
  · exact TDDm.denote_inj hds hio hwf hpos hc1 hc2
  · intro T1 T2 ds io u1 u2 hp hpds h1 h2 heq
    obtain ⟨hcu1, hwf1, hds1, hio1⟩ := TDDm.as_tensor_canonical hp h1
    obtain ⟨hcu2, hwf2, hds2, hio2⟩ := TDDm.as_tensor_canonical hp h2
    have hden1 := TDDm.as_tensor_denote hp h1
    have hden2 := TDDm.as_tensor_denote hp h2
    apply (TDDm.denote_inj (by rw [hds1, hds2]) (by rw [hio1, hio2]) hwf1
      (by rwa [hds1]) hcu1 hcu2).mp
    intro x hv
    rw [hds1] at hv
    rw [hden1 x hv, hden2 x hv]
    exact heq x hv

/-- C2 witness: the characterization applied to a concrete canonical diagram
compared with itself. -/
theorem c2_witness :
    (⟨1, [2], .terminal, [0]⟩ : TDDm).WellFormed ∧
    PosShape [2] ∧
    (((∀ x, Valid [2] x →
        (⟨1, [2], .terminal, [0]⟩ : TDDm).denote x =
        (⟨1, [2], .terminal, [0]⟩ : TDDm).denote x) ↔
      ((Node.terminal = Node.terminal) ∧ ((1 : Cpl) = 1))) ∧
     (∀ (T1 T2 : List ℕ → Cpl) (ds io : List ℕ) (u1 u2 : TDDm),
      (io ≠ [] → io.Perm (List.range ds.length)) → PosShape ds →
      TDDm.as_tensor T1 ds io = .ok u1 → TDDm.as_tensor T2 ds io = .ok u2 →
      (∀ x, Valid ds x → T1 x = T2 x) →
      u1.node = u2.node ∧ u1.weights = u2.weights)) :=
  ⟨by decide, by decide,
   c2_canonical_uniqueness ⟨1, [2], .terminal, [0]⟩ ⟨1, [2], .terminal, [0]⟩
     rfl rfl (by decide) (by decide)
     ⟨canonicalN_terminal _, fun _ => rfl⟩ ⟨canonicalN_terminal _, fun _ => rfl⟩⟩

/-- C2 counterexample: two canonical well-formed diagrams under *different*
orders denote the same tensor with different node references, refuting the
claim without the same-order restriction. -/
theorem c2_counterexample_orders :
    (⟨1, [2, 2], .node 0 [(1, .terminal), (⟨2, 0⟩, .terminal)], [0, 1]⟩ : TDDm).Canonical ∧
    (⟨1, [2, 2], .node 0 [(1, .terminal), (⟨2, 0⟩, .terminal)], [0, 1]⟩ : TDDm).WellFormed ∧
    (⟨1, [2, 2], .node 1 [(1, .terminal), (⟨2, 0⟩, .terminal)], [1, 0]⟩ : TDDm).Canonical ∧
    (⟨1, [2, 2], .node 1 [(1, .terminal), (⟨2, 0⟩, .terminal)], [1, 0]⟩ : TDDm).WellFormed ∧
    (∀ x, Valid [2, 2] x →
      (⟨1, [2, 2], .node 0 [(1, .terminal), (⟨2, 0⟩, .terminal)], [0, 1]⟩ : TDDm).denote x =
      (⟨1, [2, 2], .node 1 [(1, .terminal), (⟨2, 0⟩, .terminal)], [1, 0]⟩ : TDDm).denote x) ∧
    Node.node 0 [(1, .terminal), (⟨2, 0⟩, .terminal)] ≠
      Node.node 1 [(1, .terminal), (⟨2, 0⟩, .terminal)] := by
  refine ⟨?_, by decide, ?_, by decide, ?_, by simp⟩
  · constructor
    · show canonicalNB _ _ = true
      simp [canonicalNB, canonicalListB, rootGtB, storageShape, Cpl.ext_iff]
    · intro h
      exfalso
      rw [Cpl.ext_iff] at h
      simp at h
  · constructor
    · show canonicalNB _ _ = true
      simp [canonicalNB, canonicalListB, rootGtB, storageShape, Cpl.ext_iff]
    · intro h
      exfalso
      rw [Cpl.ext_iff] at h
      simp at h
  · intro x hv
    obtain ⟨hlen, hb⟩ := hv
    match x with
    | [x0, x1] =>
        have h0 : x0 < 2 := by simpa using hb 0 (by norm_num)
        have h1 : x1 < 2 := by simpa using hb 1 (by norm_num)
        simp only [TDDm.denote, TDDm.storageIdx]
        interval_cases x0 <;> interval_cases x1 <;> simp [evalN]

/-- C7: `sum` is commutative and associative *as facade values* for
canonical operands sharing both `data_shape` and `index_order` (the
amendment: with equal shapes but different orders the operands' storage
layouts differ and the results disagree, see the counterexample). -/
theorem c7_sum_comm_assoc (a b c : TDDm)
    (hdsb : b.data_shape = a.data_shape) (hiob : b.index_order = a.index_order)
    (hdsc : c.data_shape = a.data_shape) (hioc : c.index_order = a.index_order)
    (hwf : a.WellFormed) (hpos : PosShape a.data_shape)
    (hca : a.Canonical) (hcb : b.Canonical) (hcc : c.Canonical) :
    TDDm.sum a b = TDDm.sum b a ∧
    TDDm.sum (TDDm.sum a b) c = TDDm.sum a (TDDm.sum b c) := by
  have hwfb : b.WellFormed := by
    rw [TDDm.WellFormed, hiob, hdsb]
    exact hwf
  constructor
  · apply TDDm.eq_of_denote_eq
    · exact hdsb
    · exact hiob
    · exact hwf
    · exact hpos
    · exact TDDm.sum_canonicalT hdsb hiob hca hcb
    · exact TDDm.sum_canonicalT hdsb.symm hiob.symm hcb hca
    · intro x hv
      have h1 := TDDm.sum_denote hdsb hiob hwf hca hcb x hv
      have h2 := TDDm.sum_denote hdsb.symm hiob.symm hwfb hcb hca x
        (by rw [hdsb]; exact hv)
      rw [h1, h2]
      exact add_comm _ _
  · have hdscb : c.data_shape = b.data_shape := hdsc.trans hdsb.symm
    have hiocb : c.index_order = b.index_order := hioc.trans hiob.symm
    apply TDDm.eq_of_denote_eq
    · rfl
    · rfl
    · exact hwf
    · exact hpos
    · exact TDDm.sum_canonicalT hdsc hioc
        (TDDm.sum_canonicalT hdsb hiob hca hcb) hcc
    · exact TDDm.sum_canonicalT hdsb hiob hca
        (TDDm.sum_canonicalT hdscb hiocb hcb hcc)
    · intro x hv
      have h1 := @TDDm.sum_denote (TDDm.sum a b) c hdsc hioc hwf
        (TDDm.sum_canonicalT hdsb hiob hca hcb) hcc x hv
      have h2 := TDDm.sum_denote hdsb hiob hwf hca hcb x hv
      have h3 := @TDDm.sum_denote a (TDDm.sum b c) hdsb hiob hwf hca
        (TDDm.sum_canonicalT hdscb hiocb hcb hcc) x hv
      have h4 := TDDm.sum_denote hdscb hiocb hwfb hcb hcc x (by rw [hdsb]; exact hv)
      rw [h1, h2, h3, h4]
      exact add_assoc _ _ _

/-- C7 witness: commutativity and associativity at a concrete canonical
diagram. -/
theorem c7_witness :
    (⟨1, [2], .terminal, [0]⟩ : TDDm).WellFormed ∧ PosShape [2] ∧
    (TDDm.sum ⟨1, [2], .terminal, [0]⟩ ⟨1, [2], .terminal, [0]⟩ =
      TDDm.sum ⟨1, [2], .terminal, [0]⟩ ⟨1, [2], .terminal, [0]⟩ ∧
     TDDm.sum (TDDm.sum ⟨1, [2], .terminal, [0]⟩ ⟨1, [2], .terminal, [0]⟩)
         ⟨1, [2], .terminal, [0]⟩ =
      TDDm.sum ⟨1, [2], .terminal, [0]⟩
        (TDDm.sum ⟨1, [2], .terminal, [0]⟩ ⟨1, [2], .terminal, [0]⟩)) :=
  ⟨by decide, by decide,
   c7_sum_comm_assoc _ _ _ rfl rfl rfl rfl (by decide) (by decide)
     ⟨canonicalN_terminal _, fun _ => rfl⟩ ⟨canonicalN_terminal _, fun _ => rfl⟩
     ⟨canonicalN_terminal _, fun _ => rfl⟩⟩

/-- C7 counterexample: equal shapes but different orders — the claim's only
premise — make `sum` non-commutative even denotationally. -/
theorem c7_counterexample_orders :
    (⟨1, [2, 2], .node 0 [(1, .terminal), (0, .terminal)], [0, 1]⟩ : TDDm).data_shape
      = (⟨1, [2, 2], .node 0 [(1, .terminal), (0, .terminal)], [1, 0]⟩ : TDDm).data_shape ∧
    TDDm.denote (TDDm.sum
        ⟨1, [2, 2], .node 0 [(1, .terminal), (0, .terminal)], [0, 1]⟩
        ⟨1, [2, 2], .node 0 [(1, .terminal), (0, .terminal)], [1, 0]⟩) [0, 1] ≠
      TDDm.denote (TDDm.sum
        ⟨1, [2, 2], .node 0 [(1, .terminal), (0, .terminal)], [1, 0]⟩
        ⟨1, [2, 2], .node 0 [(1, .terminal), (0, .terminal)], [0, 1]⟩) [0, 1] := by
  refine ⟨rfl, ?_⟩
  have hcA : CanonicalN [2, 2] (.node 0 [(1, .terminal), (0, .terminal)]) := by
    show canonicalNB _ _ = true
    simp [canonicalNB, canonicalListB, rootGtB, Cpl.ext_iff]
  have h1 := @weighted_node.sum_eval [2, 2]
    (Node.node 0 [(1, .terminal), (0, .terminal)], 1)
    (Node.node 0 [(1, .terminal), (0, .terminal)], 1) hcA hcA [0, 1] (by decide)
  have h2 := @weighted_node.sum_eval [2, 2]
    (Node.node 0 [(1, .terminal), (0, .terminal)], 1)
    (Node.node 0 [(1, .terminal), (0, .terminal)], 1) hcA hcA [1, 0] (by decide)
  have e1 : evalN (.node 0 [(1, .terminal), (0, .terminal)]) [0, 1] = 1 := by
    simp [evalN]
  have e0 : evalN (.node 0 [(1, .terminal), (0, .terminal)]) [1, 0] = 0 := by
    simp [evalN]
  simp only [TDDm.denote, TDDm.sum]
  have hs1 : TDDm.storageIdx [0, 1] [0, 1] = [0, 1] := rfl
  have hs2 : TDDm.storageIdx [1, 0] [0, 1] = [1, 0] := rfl
  rw [hs1, hs2, h1, h2, e1, e0]
  intro hcontra
  have hre := congrArg Cpl.re hcontra
  simp only [Cpl.mul_re, Cpl.mul_im, Cpl.add_re, Cpl.one_re, Cpl.one_im,
    Cpl.zero_re, Cpl.zero_im] at hre
  norm_num at hre

/-- C8: under well-formed bookkeeping, `index` fails with `IndexOutOfRange`
exactly when some requested position is at or beyond the current rank; for
pairwise-distinct in-range positions with in-range values on a canonical
diagram it succeeds and reduces the rank by one per pair.  (The claimed
`InvalidBranchValue` on every out-of-range value is amended: a value on an
axis the diagram skips — a don't-care axis — is accepted silently, see the
counterexample.) -/
theorem c8_index_errors (t : TDDm) (pairs : List (ℕ × ℕ))
    (hwf : t.WellFormed) (hc : t.Canonical) :
    (t.index pairs = .error .IndexOutOfRange ↔ ∃ pv ∈ pairs, t.dim_data ≤ pv.1) ∧
    ((pairs.map (fun pv => pv.1)).Nodup →
      (∀ pv ∈ pairs, pv.1 < t.dim_data ∧ pv.2 < t.data_shape.getD pv.1 0) →
      ∃ r, t.index pairs = .ok r ∧ r.dim_data = t.dim_data - pairs.length) :=
  ⟨TDDm.index_oor_iff hwf pairs, fun hnd hpv => TDDm.index_ok hwf hc hnd hpv⟩

/-- C8 witness: the characterization at a concrete diagram and pair list. -/
theorem c8_witness :
    (⟨1, [2], .terminal, [0]⟩ : TDDm).WellFormed ∧
    (((⟨1, [2], .terminal, [0]⟩ : TDDm).index [(0, 0)] = .error .IndexOutOfRange ↔
        ∃ pv ∈ [((0 : ℕ), (0 : ℕ))], (⟨1, [2], .terminal, [0]⟩ : TDDm).dim_data ≤ pv.1) ∧
     (([((0 : ℕ), (0 : ℕ))].map (fun pv => pv.1)).Nodup →
      (∀ pv ∈ [((0 : ℕ), (0 : ℕ))], pv.1 < (⟨1, [2], .terminal, [0]⟩ : TDDm).dim_data ∧
        pv.2 < (⟨1, [2], .terminal, [0]⟩ : TDDm).data_shape.getD pv.1 0) →
      ∃ r, (⟨1, [2], .terminal, [0]⟩ : TDDm).index [(0, 0)] = .ok r ∧
        r.dim_data = (⟨1, [2], .terminal, [0]⟩ : TDDm).dim_data - 1)) :=
  ⟨by decide,
   c8_index_errors ⟨1, [2], .terminal, [0]⟩ [(0, 0)] (by decide)
     ⟨canonicalN_terminal _, fun _ => rfl⟩⟩

/-- C8 counterexample: on a don't-care axis (the terminal diagram skips axis
0) a branch value far beyond the axis arity is accepted with no
`InvalidBranchValue`. -/
theorem c8_counterexample_skipped_axis :
    (⟨1, [2], .terminal, [0]⟩ : TDDm).index [(0, 5)] = .ok ⟨1 * 1, [], .terminal, []⟩ ∧
    ¬ (5 < ([2] : List ℕ).getD 0 0) := by
  refine ⟨?_, by decide⟩
  simp only [TDDm.index, TDDm.index_reduce_proc]
  rw [if_neg (by decide)]
  rw [weighted_node.index, weighted_node.indexCore_terminal, except_map_ok, except_map_ok]
  simp only [Except.ok.injEq, TDDm.mk.injEq]
  refine ⟨trivial, by decide, trivial, ?_⟩
  apply pyArgsort_eq <;> decide

/-- C6: index composition fails in the source: on a rank-4 diagram with the
non-involutive storage order `[0, 2, 3, 1]`, composing two single-position
`index` calls (positions `p = 0` then `q - 1 = 0`) disagrees with the single
two-position call at `p = 0, q = 1` — `__index_reduce_proc` rebuilds
`index_order` as the argsort of the surviving entries, which is the inverse of
the correct renumbered order. -/
theorem c6_index_composition_fails :
    (((⟨1, [2, 2, 2, 2], .terminal, [0, 2, 3, 1]⟩ : TDDm).index [(0, 0)]).bind
        (fun s => s.index [(0, 0)])) ≠
      (⟨1, [2, 2, 2, 2], .terminal, [0, 2, 3, 1]⟩ : TDDm).index [(0, 0), (1, 0)] := by
  have h1 : (⟨1, [2, 2, 2, 2], .terminal, [0, 2, 3, 1]⟩ : TDDm).index [(0, 0)]
      = .ok ⟨1 * 1, [2, 2, 2], .terminal, [2, 0, 1]⟩ := by
    simp only [TDDm.index, TDDm.index_reduce_proc]
    rw [if_neg (by decide)]
    rw [weighted_node.index, weighted_node.indexCore_terminal, except_map_ok,
      except_map_ok]
    simp only [Except.ok.injEq, TDDm.mk.injEq]
    refine ⟨trivial, by decide, trivial, ?_⟩
    apply pyArgsort_eq <;> decide
  have h2 : (⟨1 * 1, [2, 2, 2], .terminal, [2, 0, 1]⟩ : TDDm).index [(0, 0)]
      = .ok ⟨(1 * 1) * 1, [2, 2], .terminal, [1, 0]⟩ := by
    simp only [TDDm.index, TDDm.index_reduce_proc]
    rw [if_neg (by decide)]
    rw [weighted_node.index, weighted_node.indexCore_terminal, except_map_ok,
      except_map_ok]
    simp only [Except.ok.injEq, TDDm.mk.injEq]
    refine ⟨trivial, by decide, trivial, ?_⟩
    apply pyArgsort_eq <;> decide
  have h3 : (⟨1, [2, 2, 2, 2], .terminal, [0, 2, 3, 1]⟩ : TDDm).index [(0, 0), (1, 0)]
      = .ok ⟨1 * 1, [2, 2], .terminal, [0, 1]⟩ := by
    simp only [TDDm.index, TDDm.index_reduce_proc]
    rw [if_neg (by decide)]
    rw [weighted_node.index, weighted_node.indexCore_terminal, except_map_ok,
      except_map_ok]
    simp only [Except.ok.injEq, TDDm.mk.injEq]
    refine ⟨trivial, by decide, trivial, ?_⟩
    apply pyArgsort_eq <;> decide
  rw [h1, except_bind_ok, h3]
  intro h
  have hio := congrArg (fun r => match r with
    | Except.ok u => u.index_order
    | Except.error _ => ([] : List ℕ)) ((h2.symm.trans h))
  simp only at hio
  revert hio
  decide
